import Mathlib

/-!
Verification of the tafarru3 graph editor core: a shallow embedding of the
graph store (`src/store/useFlowStore.ts`, the variant with the immer
middleware and synchronous renumbering, whose line numbers the claims cite)
and of the CSV serialization codec (`src/utils/csv.ts`, the variant with the
packed `ConnectionData` column).

Modelling conventions, chosen once and used throughout:
* JavaScript strings are `String`; optional string fields whose every use in
  the source goes through `|| ''` / truthiness are collapsed to `String`
  with `""` for `undefined`.
* Diagram coordinates and size/width fields are integers (`Int`); the
  JavaScript `toString`/`parseInt`/`parseFloat` pair on integer values is
  injective and is modelled as the identity between the number and its CSV
  cell, so numeric CSV cells are `Option Int` (`none` = empty cell).
* `id` strings produced from template literals like `node-${k}` use an
  explicit decimal printer `natChars`, the model of JavaScript's decimal
  number-to-string conversion.
* JavaScript `String.prototype.trim` is modelled by `jsTrim` over the four
  common whitespace characters; `split(c)` by `splitChar`; first-occurrence
  `String.prototype.replace` with a string pattern by `jsReplaceFirst`.
-/

/-- Whitespace test used by the model of JavaScript `trim`. -/
def isWS (c : Char) : Bool := c = ' ' || c = '\t' || c = '\n' || c = '\r'

/-- Model of JavaScript `trim` on a character list. -/
def jsTrimL (l : List Char) : List Char :=
  ((l.dropWhile isWS).reverse.dropWhile isWS).reverse

/-- Model of JavaScript `String.prototype.trim`. -/
def jsTrim (s : String) : String := String.mk (jsTrimL s.data)

/-- Model of JavaScript `String.prototype.split` with a one-character
separator: always returns at least one (possibly empty) piece. -/
def splitChar (sep : Char) : List Char → List (List Char)
  | [] => [[]]
  | c :: cs =>
    match splitChar sep cs with
    | [] => [[]]
    | g :: gs => if c = sep then [] :: g :: gs else (c :: g) :: gs

/-- Inverse of `splitChar`: join pieces with the separator. -/
def joinChar (sep : Char) : List (List Char) → List Char
  | [] => []
  | [l] => l
  | l :: ls => l ++ sep :: joinChar sep ls

theorem splitChar_ne_nil (sep : Char) (l : List Char) : splitChar sep l ≠ [] := by
  cases l with
  | nil => simp [splitChar]
  | cons c cs =>
    simp only [splitChar]
    cases h : splitChar sep cs with
    | nil => simp
    | cons g gs => by_cases hc : c = sep <;> simp [hc]

theorem join_splitChar (sep : Char) (l : List Char) :
    joinChar sep (splitChar sep l) = l := by
  induction l with
  | nil => rfl
  | cons c cs ih =>
    simp only [splitChar]
    cases h : splitChar sep cs with
    | nil => exact absurd h (splitChar_ne_nil sep cs)
    | cons g gs =>
      rw [h] at ih
      by_cases hc : c = sep
      · subst hc; simp only [if_pos rfl, joinChar]
        cases gs <;> simpa [joinChar] using ih
      · simp only [if_neg hc]
        cases gs <;> simpa [joinChar] using ih

theorem splitChar_sep_cons (sep : Char) (r : List Char) :
    splitChar sep (sep :: r) = [] :: splitChar sep r := by
  simp only [splitChar]
  cases h : splitChar sep r with
  | nil => exact absurd h (splitChar_ne_nil sep r)
  | cons g gs => simp

theorem splitChar_not_sep_cons (sep c : Char) (hc : c ≠ sep) (r : List Char) :
    splitChar sep (c :: r) =
      (c :: (splitChar sep r).headI) :: (splitChar sep r).tail := by
  simp only [splitChar]
  cases h : splitChar sep r with
  | nil => exact absurd h (splitChar_ne_nil sep r)
  | cons g gs => simp [hc]

/-- Splitting a list that starts with a separator-free prefix `t` followed by
the separator peels off exactly `t`. -/
theorem splitChar_append_sep (sep : Char) (t r : List Char)
    (ht : sep ∉ t) : splitChar sep (t ++ sep :: r) = t :: splitChar sep r := by
  induction t with
  | nil => simpa using splitChar_sep_cons sep r
  | cons c cs ih =>
    have hc : c ≠ sep := fun h => ht (h ▸ List.mem_cons_self c cs)
    have ih' := ih (fun h => ht (List.mem_cons_of_mem c h))
    rw [List.cons_append, splitChar_not_sep_cons sep c hc, ih']
    simp

/-- Splitting a separator-free list returns it whole. -/
theorem splitChar_of_not_mem (sep : Char) (t : List Char) (ht : sep ∉ t) :
    splitChar sep t = [t] := by
  induction t with
  | nil => rfl
  | cons c cs ih =>
    have hc : c ≠ sep := fun h => ht (h ▸ List.mem_cons_self c cs)
    have ih' := ih (fun h => ht (List.mem_cons_of_mem c h))
    rw [splitChar_not_sep_cons sep c hc, ih']
    simp

/-- `splitChar` of a `joinChar` of separator-free pieces recovers the pieces. -/
theorem splitChar_joinChar (sep : Char) (ls : List (List Char))
    (hne : ls ≠ []) (h : ∀ l ∈ ls, sep ∉ l) :
    splitChar sep (joinChar sep ls) = ls := by
  induction ls with
  | nil => exact absurd rfl hne
  | cons l ls ih =>
    cases ls with
    | nil => simpa [joinChar] using splitChar_of_not_mem sep l (h l (by simp))
    | cons l' ls' =>
      have h1 : sep ∉ l := h l (by simp)
      have ih' := ih (by simp) (fun x hx => h x (List.mem_cons_of_mem l hx))
      simp only [joinChar]
      rw [splitChar_append_sep sep l _ h1]
      simpa [joinChar] using congrArg (l :: ·) ih'

theorem length_splitChar (sep : Char) (l : List Char) :
    (splitChar sep l).length = l.count sep + 1 := by
  induction l with
  | nil => simp [splitChar]
  | cons c cs ih =>
    by_cases hc : c = sep
    · subst hc
      rw [splitChar_sep_cons]
      simp [List.count_cons, ih]
    · rw [splitChar_not_sep_cons sep c hc]
      have := splitChar_ne_nil sep cs
      cases h : splitChar sep cs with
      | nil => exact absurd h this
      | cons g gs =>
        rw [h] at ih
        simp only [List.length_cons, List.headI, List.tail]
        simp only [h, List.length_cons] at ih
        simp [List.count_cons, hc, ih]

/-- Every character of every piece of a split occurs in the original list. -/
theorem mem_of_mem_splitChar (sep : Char) {l : List Char} {p : List Char}
    (hp : p ∈ splitChar sep l) {c : Char} (hc : c ∈ p) : c ∈ l := by
  induction l generalizing p with
  | nil =>
    simp [splitChar] at hp
    subst hp; simp at hc
  | cons a as ih =>
    by_cases ha : a = sep
    · subst ha
      rw [splitChar_sep_cons] at hp
      rcases List.mem_cons.mp hp with h | h
      · subst h; simp at hc
      · exact List.mem_cons_of_mem _ (ih h hc)
    · rw [splitChar_not_sep_cons sep a ha] at hp
      cases hs : splitChar sep as with
      | nil => exact absurd hs (splitChar_ne_nil sep as)
      | cons g gs =>
        rw [hs] at hp
        simp only [List.headI, List.tail] at hp
        rcases List.mem_cons.mp hp with h | h
        · subst h
          rcases List.mem_cons.mp hc with h' | h'
          · subst h'; simp
          · exact List.mem_cons_of_mem _ (ih (hs ▸ List.mem_cons_self g gs : g ∈ splitChar sep as) h')
        · exact List.mem_cons_of_mem _ (ih (hs ▸ List.mem_cons_of_mem g h : _ ∈ splitChar sep as) hc)

theorem jsTrimL_eq_nil_iff (l : List Char) :
    jsTrimL l = [] ↔ ∀ c ∈ l, isWS c := by
  unfold jsTrimL
  rw [List.reverse_eq_nil_iff, List.dropWhile_eq_nil_iff]
  constructor
  · intro h c hc
    by_cases hws : ∀ x ∈ l, isWS x
    · exact hws c hc
    · -- the dropWhile result is nonempty and its head is not whitespace
      rcases hd : l.dropWhile isWS with _ | ⟨x, xs⟩
      · exact absurd (List.dropWhile_eq_nil_iff.mp hd) hws
      · have hx : ¬ isWS x = true := by
          have := List.head_dropWhile_not isWS (l := l) (by simp [hd])
          simpa [hd] using this
        have hmem : x ∈ (l.dropWhile isWS).reverse := by simp [hd]
        exact absurd (h x hmem) hx
  · intro h c hc
    exact h c ((List.dropWhile_sublist isWS).mem (List.mem_reverse.mp hc))

theorem jsTrim_eq_empty_iff (s : String) :
    jsTrim s = "" ↔ ∀ c ∈ s.data, isWS c := by
  unfold jsTrim
  rw [String.ext_iff]
  exact jsTrimL_eq_nil_iff s.data

theorem jsTrim_ne_empty_of_mem {s : String} {c : Char}
    (hc : c ∈ s.data) (hws : ¬ isWS c) : jsTrim s ≠ "" := by
  intro h
  exact hws ((jsTrim_eq_empty_iff s).mp h c hc)

/-- Decimal digit character for a value `< 10`. -/
def decDigit : Nat → Char
  | 0 => '0' | 1 => '1' | 2 => '2' | 3 => '3' | 4 => '4'
  | 5 => '5' | 6 => '6' | 7 => '7' | 8 => '8' | 9 => '9'
  | _ + 10 => '0'

/-- Numeric value of a digit character, as JavaScript `parseInt` computes it. -/
def digitVal (c : Char) : Nat := c.toNat - 48

theorem digitVal_decDigit {n : Nat} (h : n < 10) : digitVal (decDigit n) = n := by
  interval_cases n <;> rfl

theorem isDigit_decDigit {n : Nat} (h : n < 10) : (decDigit n).isDigit := by
  interval_cases n <;> rfl

/-- Fuel-driven decimal printer (the fuel `n + 1` always suffices). -/
def natCharsAux : Nat → Nat → List Char
  | 0, _ => []
  | fuel + 1, n =>
    if n < 10 then [decDigit n]
    else natCharsAux fuel (n / 10) ++ [decDigit (n % 10)]

/-- Model of JavaScript decimal conversion of a nonnegative integer to a
string (as in template literals such as `node-${k}`). -/
def natChars (n : Nat) : List Char := natCharsAux (n + 1) n

theorem natCharsAux_fuel {n : Nat} : ∀ {f : Nat}, n < f →
    natCharsAux f n = natChars n := by
  induction n using Nat.strong_induction_on with
  | _ n ih =>
    intro f hf
    match f with
    | 0 => omega
    | f + 1 =>
      have hL : natCharsAux (f + 1) n = if n < 10 then [decDigit n]
          else natCharsAux f (n / 10) ++ [decDigit (n % 10)] := rfl
      have hR : natChars n = if n < 10 then [decDigit n]
          else natCharsAux n (n / 10) ++ [decDigit (n % 10)] := rfl
      rw [hL, hR]
      by_cases h10 : n < 10
      · simp [h10]
      · have hdiv : n / 10 < n := Nat.div_lt_self (by omega) (by omega)
        simp only [if_neg h10]
        rw [ih _ hdiv (by omega), ih _ hdiv (by omega)]

theorem natChars_unfold (n : Nat) :
    natChars n = if n < 10 then [decDigit n]
      else natChars (n / 10) ++ [decDigit (n % 10)] := by
  have hL : natChars n = if n < 10 then [decDigit n]
      else natCharsAux n (n / 10) ++ [decDigit (n % 10)] := rfl
  rw [hL]
  by_cases h10 : n < 10
  · simp [h10]
  · have hdiv : n / 10 < n := Nat.div_lt_self (by omega) (by omega)
    simp only [if_neg h10]
    rw [natCharsAux_fuel hdiv]

theorem natChars_ne_nil (n : Nat) : natChars n ≠ [] := by
  rw [natChars_unfold]
  by_cases h : n < 10 <;> simp [h]

theorem natChars_all_digit (n : Nat) : ∀ c ∈ natChars n, c.isDigit := by
  induction n using Nat.strong_induction_on with
  | _ n ih =>
    rw [natChars_unfold]
    by_cases h : n < 10
    · simpa [h] using isDigit_decDigit h
    · have hdiv : n / 10 < n := Nat.div_lt_self (by omega) (by omega)
      simp only [if_neg h]
      intro c hc
      rcases List.mem_append.mp hc with h' | h'
      · exact ih _ hdiv c h'
      · simp at h'
        subst h'
        exact isDigit_decDigit (Nat.mod_lt n (by omega))

/-- The numeric-value fold JavaScript `parseInt` performs over digit chars. -/
def parseDigitsVal (l : List Char) : Nat :=
  l.foldl (fun a c => a * 10 + digitVal c) 0

theorem foldl_digits_shift (l : List Char) (a : Nat) :
    l.foldl (fun a c => a * 10 + digitVal c) a =
      a * 10 ^ l.length + parseDigitsVal l := by
  induction l generalizing a with
  | nil => simp [parseDigitsVal]
  | cons c cs ih =>
    simp only [List.foldl_cons, parseDigitsVal] at *
    rw [ih, ih (0 * 10 + digitVal c)]
    simp only [List.length_cons, pow_succ]
    ring

theorem parseDigitsVal_natChars (n : Nat) : parseDigitsVal (natChars n) = n := by
  induction n using Nat.strong_induction_on with
  | _ n ih =>
    rw [natChars_unfold]
    by_cases h : n < 10
    · rw [if_pos h]
      simp [parseDigitsVal, digitVal_decDigit h]
    · have hdiv : n / 10 < n := Nat.div_lt_self (by omega) (by omega)
      rw [if_neg h]
      simp only [parseDigitsVal, List.foldl_append, List.foldl_cons,
        List.foldl_nil]
      have hih := ih _ hdiv
      unfold parseDigitsVal at hih
      rw [hih, digitVal_decDigit (Nat.mod_lt n (show 0 < 10 by omega))]
      omega

/-- Model of `getNumericId` (`useFlowStore.ts`): the value of the trailing
digit run of an id string (regex `(\d+)$` + `parseInt`), `0` when the id has
no trailing digits. -/
def digitSuffix (s : String) : Nat :=
  let ds := (s.data.reverse.takeWhile Char.isDigit).reverse
  match ds with
  | [] => 0
  | _ => parseDigitsVal ds

/-- The id string `node-${k}` built by the store's template literals. -/
def mkNodeId (k : Nat) : String := "node-" ++ String.mk (natChars k)

theorem takeWhile_append_all {p : Char → Bool} (xs ys : List Char)
    (h : ∀ c ∈ xs, p c) : (xs ++ ys).takeWhile p = xs ++ ys.takeWhile p :=
  List.takeWhile_append_of_pos h

theorem digitSuffix_mkNodeId (k : Nat) : digitSuffix (mkNodeId k) = k := by
  unfold digitSuffix mkNodeId
  rw [String.data_append]
  have hdata : (String.mk (natChars k)).data = natChars k := rfl
  rw [hdata, List.reverse_append]
  have hall : ∀ c ∈ (natChars k).reverse, Char.isDigit c := by
    intro c hc
    exact natChars_all_digit k c (List.mem_reverse.mp hc)
  rw [takeWhile_append_all _ _ hall]
  have hrev : "node-".data.reverse = ['-', 'e', 'd', 'o', 'n'] := rfl
  rw [hrev]
  have : List.takeWhile Char.isDigit ['-', 'e', 'd', 'o', 'n'] = [] := rfl
  rw [this, List.append_nil, List.reverse_reverse]
  have hne := natChars_ne_nil k
  cases h : natChars k with
  | nil => exact absurd h hne
  | cons c cs =>
    rw [← h]
    simp only [h]
    rw [← h]
    exact parseDigitsVal_natChars k

/-- Shared first-occurrence string replacement, on character lists.
`leadsWith pat l` tests whether `pat` is an initial segment of `l`. -/
def leadsWith : List Char → List Char → Bool
  | [], _ => true
  | _ :: _, [] => false
  | a :: as, b :: bs => a = b && leadsWith as bs

def replaceFirstAux (pat repl : List Char) : List Char → List Char
  | [] => []
  | c :: cs =>
    if leadsWith pat (c :: cs) then repl ++ (c :: cs).drop pat.length
    else c :: replaceFirstAux pat repl cs

/-- Model of JavaScript `String.prototype.replace` with a string pattern:
replaces the first occurrence only. -/
def jsReplaceFirst (s pat repl : String) : String :=
  if pat = "" then repl ++ s
  else String.mk (replaceFirstAux pat.data repl.data s.data)

theorem leadsWith_self_append (pat rest : List Char) :
    leadsWith pat (pat ++ rest) = true := by
  induction pat with
  | nil => rfl
  | cons a as ih => simpa [leadsWith] using ih

theorem drop_of_leadsWith {pat l : List Char} (h : leadsWith pat l) :
    pat ++ l.drop pat.length = l := by
  induction pat generalizing l with
  | nil => simp
  | cons a as ih =>
    cases l with
    | nil => simp [leadsWith] at h
    | cons b bs =>
      simp only [leadsWith, Bool.and_eq_true, decide_eq_true_eq] at h
      obtain ⟨rfl, h2⟩ := h
      simpa using ih h2

theorem replaceFirstAux_self (pat : List Char) (l : List Char) :
    replaceFirstAux pat pat l = l := by
  induction l with
  | nil => rfl
  | cons c cs ih =>
    unfold replaceFirstAux
    by_cases h : leadsWith pat (c :: cs) = true
    · rw [if_pos h]
      exact drop_of_leadsWith h
    · rw [if_neg h, ih]

/-- Replacing a pattern by itself is the identity (used when renumbering is a
no-op on an edge id). -/
theorem jsReplaceFirst_self (s pat : String) : jsReplaceFirst s pat pat = s := by
  unfold jsReplaceFirst
  by_cases h : pat = ""
  · subst h; simp
  · rw [if_neg h, replaceFirstAux_self]

/- ### Data model (`src/types/index.ts`, fields used by the core) -/

/-- `NodeData`: label, onomastic fields, biography, style attributes,
optional size, and the parent back-reference.  Optional strings whose every
use goes through `|| ''` are plain `String` (`""` = absent). -/
structure NodeData where
  label : String
  deathDate : String
  kunya : String
  nasab : String
  nisba : String
  shuhra : String
  biography : String
  nodeShape : String
  nodeFillColor : String
  borderStyle : String
  borderWidth : Int
  borderColor : String
  width : Option Int
  height : Option Int
  parentId : Option String
deriving Repr, DecidableEq

/-- A react-flow node as the store uses it: id, position, payload. -/
structure FlowNode where
  id : String
  x : Int
  y : Int
  data : NodeData
deriving Repr, DecidableEq

/-- `EdgeData`: label and line styling, with optional bezier control points. -/
structure EdgeData where
  label : Option String
  lineStyle : String
  lineWidth : Int
  lineColor : String
  arrowStyle : String
  curveStyle : String
  controlPoint1X : Option Int
  controlPoint1Y : Option Int
  controlPoint2X : Option Int
  controlPoint2Y : Option Int
deriving Repr, DecidableEq

/-- A react-flow edge: id, endpoints, handles, payload. -/
structure FlowEdge where
  id : String
  source : String
  target : String
  sourceHandle : Option String
  targetHandle : Option String
  data : EdgeData
deriving Repr, DecidableEq

/-- The slice of the zustand store state that the claims are about. -/
structure StoreState where
  nodes : List FlowNode
  edges : List FlowEdge
  selectedNodes : List String
  selectedEdges : List String
  unsavedChanges : Bool
deriving Repr, DecidableEq

def emptyState : StoreState :=
  { nodes := [], edges := [], selectedNodes := [], selectedEdges := []
    unsavedChanges := false }

/- ### Identifier manager (`getNumericId`, `getNextNodeId`,
`recalculateNodeIds` in `useFlowStore.ts`) -/

/-- Numeric sort key of a node: `getNumericId(node.id)`. -/
def nodeKey (n : FlowNode) : Nat := digitSuffix n.id

/-- Stable insertion used to model `Array.prototype.sort` (stable, ES2019)
with comparator `getNumericId(a.id) - getNumericId(b.id)`. -/
def insertByKey (n : FlowNode) : List FlowNode → List FlowNode
  | [] => [n]
  | m :: ms => if nodeKey n ≤ nodeKey m then n :: m :: ms else m :: insertByKey n ms

/-- Stable sort of the node list by numeric id (extensionally equal to the
source's stable `sort((a, b) => aId - bId)`). -/
def sortNodes : List FlowNode → List FlowNode
  | [] => []
  | n :: ns => insertByKey n (sortNodes ns)

/-- The old-id → new-id association built by `recalculateNodeIds` from the
sorted node list (an entry only where the id actually changes), starting at
position `k`. -/
def renumMapping (k : Nat) : List FlowNode → List (String × String)
  | [] => []
  | n :: ns =>
    let rest := renumMapping (k + 1) ns
    if n.id = mkNodeId (k + 1) then rest else (n.id, mkNodeId (k + 1)) :: rest

/-- `idMapping[s] || s`: mapping lookup with identity fallback. -/
def mlookup (m : List (String × String)) (s : String) : String :=
  match m.find? (fun p => p.1 = s) with
  | some p => p.2
  | none => s

/-- `parentId` rewrite in `recalculateNodeIds`: only rewrites a truthy
`parentId` that has a mapping entry. -/
def rewriteParent (m : List (String × String)) : Option String → Option String
  | none => none
  | some p =>
    if p = "" then some p
    else match m.find? (fun q => q.1 = p) with
      | some q => some q.2
      | none => some p

/-- New-id assignment of `recalculateNodeIds`: position `i` (from `k`) gets
id `node-${i+1}`, and the `parentId` is rewritten through the mapping. -/
def assignIds (m : List (String × String)) (k : Nat) : List FlowNode → List FlowNode
  | [] => []
  | n :: ns =>
    { n with id := mkNodeId (k + 1)
             data := { n.data with parentId := rewriteParent m n.data.parentId } }
      :: assignIds m (k + 1) ns

/-- Edge rewrite of `recalculateNodeIds`:
`id.replace(source, newSource).replace(target, newTarget)` plus the new
endpoints. -/
def rewriteEdge (m : List (String × String)) (e : FlowEdge) : FlowEdge :=
  let ns := mlookup m e.source
  let nt := mlookup m e.target
  { e with id := jsReplaceFirst (jsReplaceFirst e.id e.source ns) e.target nt
           source := ns
           target := nt }

/-- `recalculateNodeIds` (`useFlowStore.ts` lines 321–371): sort by numeric
id, assign `node-1..node-N`, rewrite `parentId`s, edge endpoints and the
node selection through the old→new mapping. -/
def recalculateNodeIds (st : StoreState) : StoreState :=
  let sorted := sortNodes st.nodes
  let m := renumMapping 0 sorted
  { st with nodes := assignIds m 0 sorted
            edges := st.edges.map (rewriteEdge m)
            selectedNodes := st.selectedNodes.map (mlookup m) }

/- ### Graph store operations (`useFlowStore.ts`) -/

/-- `getNextNodeId` (lines 312–318): `node-${maxId + 1}` where `maxId` is the
largest numeric suffix of the current node ids (`0` when there are none). -/
def getNextNodeId (nodes : List FlowNode) : String :=
  mkNodeId ((nodes.map nodeKey).foldl max 0 + 1)

/-- `addNode` (lines 461–467): appends the node under the next sequential id
(the caller-supplied id is overridden). -/
def addNode (n : FlowNode) (st : StoreState) : StoreState :=
  { st with nodes := st.nodes ++ [{ n with id := getNextNodeId st.nodes }]
            unsavedChanges := true }

/-- `updateNode` (lines 469–475): merge into the data of the first node with
the given id; silent no-op when the id is missing.  The object-spread merge
`{...node.data, ...data}` is abstracted by the transformer `f`. -/
def updateNode (nodeId : String) (f : NodeData → NodeData) (st : StoreState) : StoreState :=
  match st.nodes.find? (fun n => n.id = nodeId) with
  | none => st
  | some _ =>
    { st with nodes := st.nodes.map (fun n => if n.id = nodeId then { n with data := f n.data } else n)
              unsavedChanges := true }

/-- The filtering/clearing phase of `deleteNodes` (lines 477–498), before
renumbering: drop the nodes, drop every edge touching them, clear truthy
`parentId`s that point at a deleted node. -/
def deleteNodesRaw (nodeIds : List String) (st : StoreState) : StoreState :=
  { st with
      nodes := (st.nodes.filter (fun n => ¬ nodeIds.contains n.id)).map (fun n =>
        match n.data.parentId with
        | some p => if p ≠ "" ∧ nodeIds.contains p
            then { n with data := { n.data with parentId := none } } else n
        | none => n)
      edges := st.edges.filter (fun e =>
        ¬ nodeIds.contains e.source ∧ ¬ nodeIds.contains e.target)
      unsavedChanges := true }

/-- `deleteNodes` (lines 477–504): the raw phase followed by
`recalculateNodeIds`. -/
def deleteNodes (nodeIds : List String) (st : StoreState) : StoreState :=
  recalculateNodeIds (deleteNodesRaw nodeIds st)

/-- The edge object `onConnect` pushes (id built from `Date.now()`, passed in
here as `now`). -/
def connEdge (now : Nat) (source target : String) (sh th : Option String) : FlowEdge :=
  { id := "e" ++ source ++ "-" ++ target ++ "-" ++ String.mk (natChars now)
    source := source
    target := target
    sourceHandle := sh
    targetHandle := th
    data := { label := none, lineStyle := "solid", lineWidth := 2
              lineColor := "#000000", arrowStyle := "start", curveStyle := "curve"
              controlPoint1X := none, controlPoint1Y := none
              controlPoint2X := none, controlPoint2Y := none } }

/-- Set the `parentId` of the first node with the given id (the source's
`findIndex` + in-place replacement). -/
def setParentFirst (nid pid : String) : List FlowNode → List FlowNode
  | [] => []
  | n :: ns =>
    if n.id = nid then { n with data := { n.data with parentId := some pid } } :: ns
    else n :: setParentFirst nid pid ns

/-- `onConnect` (lines 402–458): when both endpoints exist and the handle
pair is hierarchical, set the child's `parentId`; always push a new edge. -/
def onConnect (now : Nat) (source target : String) (sh th : Option String)
    (st : StoreState) : StoreState :=
  let bothExist := st.nodes.any (fun n => n.id = source) ∧ st.nodes.any (fun n => n.id = target)
  let nodes' :=
    if bothExist then
      if sh = some "top" ∧ th = some "bottom" then setParentFirst source target st.nodes
      else if sh = some "bottom" ∧ th = some "top" then setParentFirst target source st.nodes
      else st.nodes
    else st.nodes
  { st with nodes := nodes'
            edges := st.edges ++ [connEdge now source target sh th]
            unsavedChanges := true }

/-- A partial `EdgeData` as `updateEdge` receives it: `none` = field absent.
For the control points the outer `Option` is presence (the `'k' in data`
test) and the inner `Option` the value. -/
structure EdgePatch where
  label : Option (Option String)
  lineStyle : Option String
  lineWidth : Option Int
  lineColor : Option String
  arrowStyle : Option String
  curveStyle : Option String
  controlPoint1X : Option (Option Int)
  controlPoint1Y : Option (Option Int)
  controlPoint2X : Option (Option Int)
  controlPoint2Y : Option (Option Int)
deriving Repr, DecidableEq

/-- The field-level `??`/presence merge of `updateEdge` (lines 516–532). -/
def mergeEdgeData (d : EdgePatch) (current : EdgeData) : EdgeData :=
  { lineStyle := d.lineStyle.getD current.lineStyle
    lineWidth := d.lineWidth.getD current.lineWidth
    lineColor := d.lineColor.getD current.lineColor
    arrowStyle := d.arrowStyle.getD current.arrowStyle
    curveStyle := d.curveStyle.getD current.curveStyle
    label := d.label.getD current.label
    controlPoint1X := d.controlPoint1X.getD current.controlPoint1X
    controlPoint1Y := d.controlPoint1Y.getD current.controlPoint1Y
    controlPoint2X := d.controlPoint2X.getD current.controlPoint2X
    controlPoint2Y := d.controlPoint2Y.getD current.controlPoint2Y }

/-- Replace the element at an index (the source's `edges[edgeIndex] = ...`). -/
def setAt (l : List FlowEdge) (i : Nat) (e : FlowEdge) : List FlowEdge :=
  l.set i e

/-- `updateEdge` (lines 512–539): find the edge index, merge field-by-field;
silent no-op (early `return`) when the id is missing. -/
def updateEdge (edgeId : String) (d : EdgePatch) (st : StoreState) : StoreState :=
  match st.edges.findIdx? (fun e => e.id = edgeId) with
  | none => st
  | some i =>
    match st.edges.get? i with
    | none => st
    | some prev =>
      { st with edges := setAt st.edges i { prev with data := mergeEdgeData d prev.data }
                unsavedChanges := true }

/-- Clear the `parentId` of the first node with id `nid` if it currently
equals `some pid` (the body of `deleteEdges`' hierarchical-edge check:
`find` the node, test its `parentId`, mutate in place). -/
def clearParentFirst (nid pid : String) : List FlowNode → List FlowNode
  | [] => []
  | n :: ns =>
    if n.id = nid then
      (if n.data.parentId = some pid
       then { n with data := { n.data with parentId := none } } else n) :: ns
    else n :: clearParentFirst nid pid ns

/-- One iteration of the `edgeIds.forEach` loop of `deleteEdges`: look the id
up in the (still unfiltered) edge list and clear the backing `parentId` when
the edge is hierarchical. -/
def deleteEdgesStep (edges : List FlowEdge) (nodes : List FlowNode) (edgeId : String) :
    List FlowNode :=
  match edges.find? (fun e => e.id = edgeId) with
  | none => nodes
  | some e =>
    if e.sourceHandle = some "top" ∧ e.targetHandle = some "bottom" then
      clearParentFirst e.source e.target nodes
    else if e.sourceHandle = some "bottom" ∧ e.targetHandle = some "top" then
      clearParentFirst e.target e.source nodes
    else nodes

/-- `deleteEdges` (lines 541–571): clear `parentId`s backed by deleted
hierarchical edges, then drop the edges. -/
def deleteEdges (edgeIds : List String) (st : StoreState) : StoreState :=
  { st with nodes := edgeIds.foldl (deleteEdgesStep st.edges) st.nodes
            edges := st.edges.filter (fun e => ¬ edgeIds.contains e.id)
            unsavedChanges := true }

/- ### Serialization codec (`src/utils/csv.ts`) -/

/-- JavaScript `x || d` for a plain string. -/
def orS (s d : String) : String := if s = "" then d else s

/-- JavaScript `x || d` where `x` may be `undefined` (an `Option String`):
both `undefined` and `""` fall back to the default. -/
def orD (o : Option String) (d : String) : String :=
  match o with
  | some s => if s = "" then d else s
  | none => d

/-- Decimal printing of an `Int` (JavaScript `toString`). -/
def intChars (i : Int) : List Char :=
  if i < 0 then '-' :: natChars i.natAbs else natChars i.toNat

/-- `edge.data.controlPointNX?.toString() || '0'`. -/
def cpCell (o : Option Int) : String :=
  match o with
  | some v => String.mk (intChars v)
  | none => "0"

/-- Model of `parseFloat` on the integer-valued strings the encoder emits
(non-numeric input, which would give `NaN`, is collapsed to `0`; no claim
evaluates that case). -/
def jsParseNum (s : String) : Int := s.toInt?.getD 0

/-- A CSV row (`CSVRow` in `types/index.ts`, packed-`ConnectionData` layout).
Numeric columns carry their integer value (`none` = empty cell), per the
file-header conventions. -/
structure CSVRow where
  ID : String
  ParentID : String
  Label : String
  DeathDate : String
  Kunya : String
  Nasab : String
  Nisba : String
  Shuhra : String
  Biography : String
  NodeShape : String
  NodeFillColor : String
  BorderStyle : String
  BorderWidth : Option Int
  BorderColor : String
  LineStyle : String
  LineWidth : Option Int
  LineColor : String
  ArrowStyle : String
  LineLabel : String
  X : Option Int
  Y : Option Int
  Width : Option Int
  Height : Option Int
  ConnectionData : String
deriving Repr, DecidableEq

/-- The comma-separated components of one packed-connection tuple
(`generateCSV` lines 173–195), including the bezier control points. -/
def tupleComponents (e : FlowEdge) : List String :=
  [e.target,
   orS e.data.curveStyle "straight",
   orD e.sourceHandle "bottom",
   orD e.targetHandle "top",
   orS e.data.lineStyle "solid",
   orS e.data.lineColor "#b1b1b7",
   orS e.data.arrowStyle "end",
   e.data.label.getD ""] ++
  (if e.data.curveStyle = "bezier" then
    [cpCell e.data.controlPoint1X, cpCell e.data.controlPoint1Y,
     cpCell e.data.controlPoint2X, cpCell e.data.controlPoint2Y]
   else [])

/-- One packed tuple as characters. -/
def tupleChars (e : FlowEdge) : List Char :=
  joinChar ',' ((tupleComponents e).map String.data)

/-- The non-hierarchical outgoing edges serialized on a node's row
(`generateCSV` lines 162–170): edges from this node, except the one to the
node's parent. -/
def additionalEdges (edges : List FlowEdge) (n : FlowNode) : List FlowEdge :=
  let pid := n.data.parentId.getD ""
  edges.filter (fun e => e.source = n.id ∧ ¬ (pid ≠ "" ∧ e.target = pid))

/-- The parent edge looked up for row styling (`generateCSV` lines 155–159):
first edge between the node and its parent, in either direction. -/
def findParentEdge (edges : List FlowEdge) (n : FlowNode) : Option FlowEdge :=
  let pid := n.data.parentId.getD ""
  edges.find? (fun e =>
    (e.source = pid ∧ e.target = n.id) ∨ (e.target = pid ∧ e.source = n.id))

/-- One output row of `generateCSV` (lines 150–224). -/
def encodeRow (edges : List FlowEdge) (n : FlowNode) : CSVRow :=
  let pid := n.data.parentId.getD ""
  let pe := findParentEdge edges n
  { ID := n.id
    ParentID := pid
    Label := n.data.label
    DeathDate := n.data.deathDate
    Kunya := n.data.kunya
    Nasab := n.data.nasab
    Nisba := n.data.nisba
    Shuhra := n.data.shuhra
    Biography := n.data.biography
    NodeShape := n.data.nodeShape
    NodeFillColor := n.data.nodeFillColor
    BorderStyle := n.data.borderStyle
    BorderWidth := some n.data.borderWidth
    BorderColor := n.data.borderColor
    LineStyle := (pe.map (fun e => e.data.lineStyle)).getD ""
    LineWidth := pe.map (fun e => e.data.lineWidth)
    LineColor := (pe.map (fun e => e.data.lineColor)).getD ""
    ArrowStyle := (pe.map (fun e => e.data.arrowStyle)).getD ""
    LineLabel := (pe.bind (fun e => e.data.label)).getD ""
    X := some n.x
    Y := some n.y
    Width := n.data.width
    Height := n.data.height
    ConnectionData :=
      String.mk (joinChar ';' ((additionalEdges edges n).map tupleChars)) }

/-- A graph as the codec exchanges it with the store. -/
structure FlowGraph where
  nodes : List FlowNode
  edges : List FlowEdge
deriving Repr, DecidableEq

/-- `generateCSV` (lines 149–229) at the row level (the BOM and the
`Papa.unparse` string layer are external and faithful). -/
def generateCSV (g : FlowGraph) : List CSVRow :=
  g.nodes.map (encodeRow g.edges)

/-- The node built from a row (`parseCSV` lines 30–57). -/
def decodeNode (i : Nat) (r : CSVRow) : FlowNode :=
  { id := if r.ID = "" then mkNodeId (i + 1) else r.ID
    x := r.X.getD 0
    y := r.Y.getD 0
    data := { label := r.Label
              deathDate := r.DeathDate
              kunya := r.Kunya
              nasab := r.Nasab
              nisba := r.Nisba
              shuhra := r.Shuhra
              biography := r.Biography
              nodeShape := orS r.NodeShape "rectangle"
              nodeFillColor := orS r.NodeFillColor "white"
              borderStyle := orS r.BorderStyle "solid"
              borderWidth := r.BorderWidth.getD 2
              borderColor := orS r.BorderColor "black"
              width := r.Width
              height := r.Height
              parentId := if r.ParentID = "" then none else some r.ParentID } }

/-- The hierarchical edge reconstructed from the `ParentID` column
(`parseCSV` lines 62–79). -/
def parentEdgeOf (r : CSVRow) : FlowEdge :=
  { id := "e" ++ r.ParentID ++ "-" ++ r.ID
    source := r.ParentID
    target := r.ID
    sourceHandle := some "bottom"
    targetHandle := some "top"
    data := { label := if r.LineLabel = "" then none else some r.LineLabel
              lineStyle := orS r.LineStyle "solid"
              lineWidth := r.LineWidth.getD 2
              lineColor := orS r.LineColor "#b1b1b7"
              arrowStyle := orS r.ArrowStyle "end"
              curveStyle := "straight"
              controlPoint1X := none, controlPoint1Y := none
              controlPoint2X := none, controlPoint2Y := none } }

/-- One packed-connection tuple (`parseCSV` lines 85–127): entries with
fewer than 8 comma-separated parts are skipped. -/
def parseEntry (rid : String) (idx : Nat) (entry : List Char) : Option FlowEdge :=
  let parts := (splitChar ',' entry).map String.mk
  if parts.length < 8 then none
  else
    let targetId := parts.getD 0 ""
    let curveType := parts.getD 1 ""
    let controlPoints := parts.drop 8
    let bez := curveType = "bezier" ∧ controlPoints.length ≥ 4
    some
      { id := "e" ++ rid ++ "-" ++ targetId ++ "-" ++ String.mk (natChars idx)
        source := rid
        target := targetId
        sourceHandle := if parts.getD 2 "" = "" then none else some (parts.getD 2 "")
        targetHandle := if parts.getD 3 "" = "" then none else some (parts.getD 3 "")
        data := { label := if parts.getD 7 "" = "" then none else some (parts.getD 7 "")
                  lineStyle := orS (parts.getD 4 "") "solid"
                  lineWidth := 2
                  lineColor := orS (parts.getD 5 "") "#b1b1b7"
                  arrowStyle := orS (parts.getD 6 "") "end"
                  curveStyle := orS curveType "straight"
                  controlPoint1X := if bez then some (jsParseNum (controlPoints.getD 0 "")) else none
                  controlPoint1Y := if bez then some (jsParseNum (controlPoints.getD 1 "")) else none
                  controlPoint2X := if bez then some (jsParseNum (controlPoints.getD 2 "")) else none
                  controlPoint2Y := if bez then some (jsParseNum (controlPoints.getD 3 "")) else none } }

/-- The indexed `forEach` over the (trim-filtered) entries. -/
def parseEntries (rid : String) (i : Nat) : List (List Char) → List FlowEdge
  | [] => []
  | c :: cs =>
    match parseEntry rid i c with
    | none => parseEntries rid (i + 1) cs
    | some e => e :: parseEntries rid (i + 1) cs

/-- `row.ConnectionData.split(';').filter(c => c.trim())` then the entry
loop. -/
def parsePacked (rid : String) (s : String) : List FlowEdge :=
  parseEntries rid 0
    ((splitChar ';' s.data).filter (fun c => jsTrim (String.mk c) ≠ ""))

/-- The edges contributed by one row: the `ParentID` edge only when no row
in the whole file carries packed data, then the packed entries. -/
def decodeEdgesRow (hasAny : Bool) (r : CSVRow) : List FlowEdge :=
  (if ¬ hasAny ∧ r.ParentID ≠ "" then [parentEdgeOf r] else []) ++
  (if r.ConnectionData ≠ "" then parsePacked r.ID r.ConnectionData else [])

def decodeNodes (i : Nat) : List CSVRow → List FlowNode
  | [] => []
  | r :: rs => decodeNode i r :: decodeNodes (i + 1) rs

def decodeEdges (hasAny : Bool) : List CSVRow → List FlowEdge
  | [] => []
  | r :: rs => decodeEdgesRow hasAny r ++ decodeEdges hasAny rs

/-- `rows.some(row => row.ConnectionData && row.ConnectionData.trim())`. -/
def hasAnyConnectionData (rows : List CSVRow) : Bool :=
  rows.any (fun r => jsTrim r.ConnectionData ≠ "")

/-- `rows.some(row => !row.X || !row.Y)`. -/
def needsAutoLayout (rows : List CSVRow) : Bool :=
  rows.any (fun r => r.X = none ∨ r.Y = none)

/-- A layout engine: repositions the nodes of a reconstructed graph.  The
source's `applyHierarchicalLayout` delegates to the external dagre library,
so the engine is a parameter here. -/
def LayoutFn : Type := List FlowNode → List FlowEdge → List FlowNode

/-- `parseCSV` (lines 6–147) at the row level: build nodes and edges, then
invoke the layout engine only when some row misses a coordinate AND no row
carries packed-connection data (line 132:
`if (needsAutoLayout && !hasAnyConnectionData)`). -/
def parseRows (L : LayoutFn) (rows : List CSVRow) : FlowGraph :=
  let nodes := decodeNodes 0 rows
  let edges := decodeEdges (hasAnyConnectionData rows) rows
  if needsAutoLayout rows ∧ ¬ hasAnyConnectionData rows then
    { nodes := L nodes edges, edges := edges }
  else
    { nodes := nodes, edges := edges }

/-- `decode(encode(g))`: the round trip of the codec. -/
def roundTrip (L : LayoutFn) (g : FlowGraph) : FlowGraph :=
  parseRows L (generateCSV g)

/- ### Helper lemmas -/

theorem foldl_max_init_le (l : List Nat) (a : Nat) : a ≤ l.foldl max a := by
  induction l generalizing a with
  | nil => simp
  | cons x xs ih => exact le_trans (le_max_left a x) (ih (max a x))

theorem le_foldl_max (l : List Nat) (a : Nat) {x : Nat} (hx : x ∈ l) :
    x ≤ l.foldl max a := by
  induction l generalizing a with
  | nil => simp at hx
  | cons y ys ih =>
    rcases List.mem_cons.mp hx with h | h
    · subst h
      exact le_trans (le_max_right a x) (foldl_max_init_le ys (max a x))
    · exact ih (max a y) h

/-- A concrete node payload used by scenario instances. -/
def sampleData : NodeData :=
  { label := "", deathDate := "", kunya := "", nasab := "", nisba := ""
    shuhra := "", biography := "", nodeShape := "rectangle"
    nodeFillColor := "white", borderStyle := "solid", borderWidth := 2
    borderColor := "black", width := none, height := none, parentId := none }

def sampleNode : FlowNode := { id := "x", x := 0, y := 0, data := sampleData }

/-- C7: `getNextNodeId` returns `node-<max+1>` where max is the greatest
numeric suffix among current node ids (`0` if none); `addNode` three times
from an empty store yields ids `node-1, node-2, node-3` in creation order,
and after `deleteNodes(["node-2"])` (which renumbers to `node-1, node-2`) a
further `addNode` yields `node-3`. -/
theorem getNextNodeId_spec_and_scenario :
    (∀ nodes : List FlowNode,
      getNextNodeId nodes = mkNodeId ((nodes.map nodeKey).foldl max 0 + 1) ∧
      (∀ n ∈ nodes, nodeKey n ≤ (nodes.map nodeKey).foldl max 0) ∧
      (nodes = [] → getNextNodeId nodes = "node-1")) ∧
    (let s3 := addNode sampleNode (addNode sampleNode (addNode sampleNode emptyState))
     s3.nodes.map (fun n => n.id) = ["node-1", "node-2", "node-3"] ∧
     (deleteNodes ["node-2"] s3).nodes.map (fun n => n.id) = ["node-1", "node-2"] ∧
     (addNode sampleNode (deleteNodes ["node-2"] s3)).nodes.map (fun n => n.id) =
       ["node-1", "node-2", "node-3"]) := by
  constructor
  · intro nodes
    refine ⟨rfl, ?_, ?_⟩
    · intro n hn
      exact le_foldl_max _ 0 (List.mem_map_of_mem nodeKey hn)
    · intro h
      subst h
      rfl
  · refine ⟨by decide, by decide, by decide⟩

/-- Witness instantiating the universally quantified part of C7. -/
theorem getNextNodeId_spec_and_scenario_witness :
    nodeKey sampleNode ≤ ([sampleNode].map nodeKey).foldl max 0 :=
  (getNextNodeId_spec_and_scenario.1 [sampleNode]).2.1 sampleNode
    (List.mem_singleton.mpr rfl)

theorem assignIds_map_id (m : List (String × String)) (k : Nat) (l : List FlowNode) :
    (assignIds m k l).map (fun n => n.id) =
      (List.range l.length).map (fun i => mkNodeId (k + i + 1)) := by
  induction l generalizing k with
  | nil => rfl
  | cons n ns ih =>
    simp only [assignIds, List.map_cons, List.length_cons, List.range_succ_eq_map,
      List.map_map]
    refine congrArg₂ (· :: ·) (by simp) ?_
    rw [ih (k + 1)]
    apply List.map_congr_left
    intro i _
    simp only [Function.comp_apply]
    congr 1
    omega

theorem assignIds_length (m : List (String × String)) (k : Nat) (l : List FlowNode) :
    (assignIds m k l).length = l.length := by
  induction l generalizing k with
  | nil => rfl
  | cons n ns ih => simp [assignIds, ih]

theorem assignIds_map_parent (m : List (String × String)) (k : Nat) (l : List FlowNode) :
    (assignIds m k l).map (fun n => n.data.parentId) =
      l.map (fun n => rewriteParent m n.data.parentId) := by
  induction l generalizing k with
  | nil => rfl
  | cons n ns ih => simp [assignIds, ih]

theorem insertByKey_length (n : FlowNode) (l : List FlowNode) :
    (insertByKey n l).length = l.length + 1 := by
  induction l with
  | nil => rfl
  | cons m ms ih =>
    unfold insertByKey
    by_cases h : nodeKey n ≤ nodeKey m <;> simp [h, ih]

theorem sortNodes_length (l : List FlowNode) : (sortNodes l).length = l.length := by
  induction l with
  | nil => rfl
  | cons n ns ih => simp [sortNodes, insertByKey_length, ih]

theorem insertByKey_perm (n : FlowNode) (l : List FlowNode) :
    List.Perm (insertByKey n l) (n :: l) := by
  induction l with
  | nil => exact List.Perm.refl _
  | cons m ms ih =>
    unfold insertByKey
    by_cases h : nodeKey n ≤ nodeKey m
    · simp [h]
    · simp only [if_neg h]
      exact ((ih.cons m).trans (List.Perm.swap n m ms))

theorem sortNodes_perm (l : List FlowNode) : List.Perm (sortNodes l) l := by
  induction l with
  | nil => exact List.Perm.refl _
  | cons n ns ih => exact (insertByKey_perm n (sortNodes ns)).trans (ih.cons n)

/-- C2: after every `deleteNodes` call the live node ids are exactly
`node-1 .. node-N` (N = surviving node count), and edge endpoints, node
`parentId`s and the node selection are rewritten through the old→new id
mapping of the renumbering. -/
theorem deleteNodes_renumbers_contiguously (st : StoreState) (ids : List String) :
    (deleteNodes ids st).nodes.map (fun n => n.id) =
      (List.range (deleteNodes ids st).nodes.length).map (fun i => mkNodeId (i + 1)) ∧
    (deleteNodes ids st).edges =
      (deleteNodesRaw ids st).edges.map
        (rewriteEdge (renumMapping 0 (sortNodes (deleteNodesRaw ids st).nodes))) ∧
    (deleteNodes ids st).nodes.map (fun n => n.data.parentId) =
      (sortNodes (deleteNodesRaw ids st).nodes).map
        (fun n => rewriteParent (renumMapping 0 (sortNodes (deleteNodesRaw ids st).nodes))
          n.data.parentId) ∧
    (deleteNodes ids st).selectedNodes =
      st.selectedNodes.map (mlookup (renumMapping 0 (sortNodes (deleteNodesRaw ids st).nodes))) := by
  refine ⟨?_, rfl, ?_, rfl⟩
  · show (assignIds _ 0 _).map _ = _
    rw [assignIds_map_id]
    have hlen : (deleteNodes ids st).nodes.length =
        (sortNodes (deleteNodesRaw ids st).nodes).length := by
      show (assignIds _ 0 _).length = _
      exact assignIds_length _ 0 _
    rw [hlen]
    simp
  · exact assignIds_map_parent _ 0 _

theorem setParentFirst_spec (nid pid : String) (l : List FlowNode)
    (hnd : (l.map (fun n => n.id)).Nodup) :
    ∀ n ∈ setParentFirst nid pid l,
      (n.id = nid → n.data.parentId = some pid) ∧ (n.id ≠ nid → n ∈ l) := by
  induction l with
  | nil => intro n hn; simp [setParentFirst] at hn
  | cons m ms ih =>
    simp only [List.map_cons, List.nodup_cons] at hnd
    obtain ⟨hm, hms⟩ := hnd
    intro n hn
    unfold setParentFirst at hn
    by_cases h : m.id = nid
    · rw [if_pos h] at hn
      rcases List.mem_cons.mp hn with h' | h'
      · subst h'
        exact ⟨fun _ => rfl, fun hne => absurd h hne⟩
      · have hne : n.id ≠ nid := by
          intro he
          apply hm
          have hmem : n.id ∈ ms.map (fun x => x.id) := List.mem_map_of_mem _ h'
          rw [he, ← h] at hmem
          exact hmem
        exact ⟨fun he => absurd he hne, fun _ => List.mem_cons_of_mem m h'⟩
    · rw [if_neg h] at hn
      rcases List.mem_cons.mp hn with rfl | h'
      · exact ⟨fun he => absurd he h, fun _ => List.mem_cons_self _ _⟩
      · obtain ⟨h1, h2⟩ := ih hms n h'
        exact ⟨h1, fun hne => List.mem_cons_of_mem m (h2 hne)⟩

/-- Number of hierarchical (bottom→top) edges from `p` to `c`. -/
def hierEdgeCount (st : StoreState) (p c : String) : Nat :=
  (st.edges.filter (fun e => e.source = p ∧ e.target = c ∧
    e.sourceHandle = some "bottom" ∧ e.targetHandle = some "top")).length

def twoNodeState : StoreState :=
  { nodes := [{ id := "node-1", x := 0, y := 0, data := sampleData },
              { id := "node-2", x := 0, y := 100, data := sampleData }]
    edges := [], selectedNodes := [], selectedEdges := [], unsavedChanges := false }

/-- The child node as it looks after the duplicate-connect counterexample. -/
def childAfterConnect : FlowNode :=
  { id := "node-2", x := 0, y := 100
    data := { sampleData with parentId := some "node-1" } }

/-- C4 counterexample: two bottom→top `onConnect` calls for the same
(parent, child) pair leave TWO hierarchical edges for the pair implied by
`parentId` — the old hierarchical edge is never removed, so the claimed
at-most-one invariant fails. -/
theorem onConnect_duplicate_hierarchical_edges :
    (∃ n ∈ (onConnect 2 "node-1" "node-2" (some "bottom") (some "top")
        (onConnect 1 "node-1" "node-2" (some "bottom") (some "top") twoNodeState)).nodes,
      n.id = "node-2" ∧ n.data.parentId = some "node-1") ∧
    hierEdgeCount
      (onConnect 2 "node-1" "node-2" (some "bottom") (some "top")
        (onConnect 1 "node-1" "node-2" (some "bottom") (some "top") twoNodeState))
      "node-1" "node-2" = 2 := by
  constructor
  · exact ⟨childAfterConnect, by decide, by decide, by decide⟩
  · decide

/-- C4 (amended): a bottom→top `onConnect` overwrites the child's `parentId`
with the new parent — the parent *relationship* is replaced, never
duplicated — and appends exactly one new edge, leaving all other nodes and
all existing edges untouched; it does not remove a previous hierarchical
edge, so duplicate hierarchical edges can accumulate (see the
counterexample). -/
theorem onConnect_replaces_parent_relationship (st : StoreState) (now : Nat)
    (s t : String)
    (hs : ∃ n ∈ st.nodes, n.id = s) (ht : ∃ n ∈ st.nodes, n.id = t)
    (hnd : (st.nodes.map (fun n => n.id)).Nodup) :
    (∀ n ∈ (onConnect now s t (some "bottom") (some "top") st).nodes,
        n.id = t → n.data.parentId = some s) ∧
    (∀ n ∈ (onConnect now s t (some "bottom") (some "top") st).nodes,
        n.id ≠ t → n ∈ st.nodes) ∧
    (onConnect now s t (some "bottom") (some "top") st).edges =
      st.edges ++ [connEdge now s t (some "bottom") (some "top")] := by
  have hb : (st.nodes.any (fun n => n.id = s) ∧ st.nodes.any (fun n => n.id = t)) := by
    constructor
    · rw [List.any_eq_true]
      obtain ⟨n, hn, he⟩ := hs
      exact ⟨n, hn, by simp [he]⟩
    · rw [List.any_eq_true]
      obtain ⟨n, hn, he⟩ := ht
      exact ⟨n, hn, by simp [he]⟩
  have hnodes : (onConnect now s t (some "bottom") (some "top") st).nodes =
      setParentFirst t s st.nodes := by
    unfold onConnect
    simp [hb]
  refine ⟨?_, ?_, rfl⟩
  · intro n hn hid
    rw [hnodes] at hn
    exact ((setParentFirst_spec t s st.nodes hnd) n hn).1 hid
  · intro n hn hid
    rw [hnodes] at hn
    exact ((setParentFirst_spec t s st.nodes hnd) n hn).2 hid

/-- Witness for C4's amended theorem at a concrete two-node store: the
child's parent reference is replaced and exactly the new edge is appended. -/
theorem onConnect_replaces_parent_relationship_witness :
    childAfterConnect.data.parentId = some "node-1" ∧
    (onConnect 1 "node-1" "node-2" (some "bottom") (some "top") twoNodeState).edges =
      twoNodeState.edges ++ [connEdge 1 "node-1" "node-2" (some "bottom") (some "top")] :=
  ⟨(onConnect_replaces_parent_relationship twoNodeState 1 "node-1" "node-2"
      ⟨{ id := "node-1", x := 0, y := 0, data := sampleData }, by decide, by decide⟩
      ⟨{ id := "node-2", x := 0, y := 100, data := sampleData }, by decide, by decide⟩
      (by decide)).1 childAfterConnect (by decide) (by decide),
   (onConnect_replaces_parent_relationship twoNodeState 1 "node-1" "node-2"
      ⟨{ id := "node-1", x := 0, y := 0, data := sampleData }, by decide, by decide⟩
      ⟨{ id := "node-2", x := 0, y := 100, data := sampleData }, by decide, by decide⟩
      (by decide)).2.2⟩

/-- Interpretation written from the spec's words: every edge comes from the
packed-connection fields only. -/
def packedOnlyEdges : List CSVRow → List FlowEdge
  | [] => []
  | r :: rs =>
    (if r.ConnectionData ≠ "" then parsePacked r.ID r.ConnectionData else []) ++
      packedOnlyEdges rs

/-- Interpretation written from the spec's words: every edge is the
hierarchical edge reconstructed from the `ParentID` column. -/
def parentOnlyEdges : List CSVRow → List FlowEdge
  | [] => []
  | r :: rs =>
    (if r.ParentID ≠ "" then [parentEdgeOf r] else []) ++ parentOnlyEdges rs

theorem parsePacked_eq_nil_of_trim {s : String} (rid : String)
    (h : jsTrim s = "") : parsePacked rid s = [] := by
  unfold parsePacked
  have hws := (jsTrim_eq_empty_iff s).mp h
  have hfil : (splitChar ';' s.data).filter (fun c => jsTrim (String.mk c) ≠ "") = [] := by
    rw [List.filter_eq_nil_iff]
    intro p hp
    have : jsTrim (String.mk p) = "" := by
      rw [jsTrim_eq_empty_iff]
      intro c hc
      exact hws c (mem_of_mem_splitChar ';' hp hc)
    simp [this]
  rw [hfil]
  rfl

theorem decodeEdges_true (rows : List CSVRow) :
    decodeEdges true rows = packedOnlyEdges rows := by
  induction rows with
  | nil => rfl
  | cons r rs ih =>
    simp only [decodeEdges, packedOnlyEdges, decodeEdgesRow, ih]
    simp

theorem decodeEdges_false (rows : List CSVRow)
    (h : ∀ r ∈ rows, jsTrim r.ConnectionData = "") :
    decodeEdges false rows = parentOnlyEdges rows := by
  induction rows with
  | nil => rfl
  | cons r rs ih =>
    simp only [decodeEdges, parentOnlyEdges, decodeEdgesRow]
    rw [ih (fun x hx => h x (List.mem_cons_of_mem r hx))]
    have hp : (if r.ConnectionData ≠ "" then parsePacked r.ID r.ConnectionData else []) = [] := by
      by_cases hc : r.ConnectionData = ""
      · simp [hc]
      · simp only [hc, ne_eq, not_false_eq_true, if_true]
        exact parsePacked_eq_nil_of_trim r.ID (h r (List.mem_cons_self r rs))
    rw [hp]
    simp

/-- C5: the decoder reconstructs hierarchical edges from the `ParentID`
column exactly when no row anywhere in the file carries a (non-whitespace)
packed-connection field, and the choice is made once for the whole file:
the decoded edge list is either the packed-only interpretation or the
parent-only interpretation, never a per-row mixture. -/
theorem decoder_parent_edge_choice_uniform (rows : List CSVRow) :
    decodeEdges (hasAnyConnectionData rows) rows =
      (if hasAnyConnectionData rows then packedOnlyEdges rows else parentOnlyEdges rows) := by
  by_cases h : hasAnyConnectionData rows
  · rw [h, if_pos rfl]
    exact decodeEdges_true rows
  · have hb : hasAnyConnectionData rows = false := by
      simpa using h
    rw [hb]
    simp only [Bool.false_eq_true, if_false]
    apply decodeEdges_false
    intro r hr
    by_contra hne
    exact h (List.any_eq_true.mpr ⟨r, hr, by simpa using hne⟩)

theorem parseEntries_spec (rid : String) : ∀ (l : List (List Char)) (i : Nat),
    (parseEntries rid i l).length =
      (l.filter (fun c => 8 ≤ (splitChar ',' c).length)).length ∧
    ∀ ed ∈ parseEntries rid i l, ed.source = rid ∧
      ∃ c ∈ l, 8 ≤ (splitChar ',' c).length ∧
        ed.target = ((splitChar ',' c).map String.mk).getD 0 "" := by
  intro l
  induction l with
  | nil => intro i; exact ⟨rfl, by intro ed hed; simp [parseEntries] at hed⟩
  | cons c cs ih =>
    intro i
    obtain ⟨ih1, ih2⟩ := ih (i + 1)
    by_cases h : ((splitChar ',' c).map String.mk).length < 8
    · have hnone : parseEntry rid i c = none := by
        unfold parseEntry
        rw [if_pos h]
      have hfil : ¬ (8 ≤ (splitChar ',' c).length) := by
        rw [List.length_map] at h
        omega
      constructor
      · simp only [parseEntries, hnone, List.filter_cons]
        simp [hfil, ih1]
      · intro ed hed
        simp only [parseEntries, hnone] at hed
        obtain ⟨h1, cc, hcc, h2⟩ := ih2 ed hed
        exact ⟨h1, cc, List.mem_cons_of_mem c hcc, h2⟩
    · have hsome : parseEntry rid i c = some
          { id := "e" ++ rid ++ "-" ++ (((splitChar ',' c).map String.mk).getD 0 "") ++ "-"
              ++ String.mk (natChars i)
            source := rid
            target := ((splitChar ',' c).map String.mk).getD 0 ""
            sourceHandle := if ((splitChar ',' c).map String.mk).getD 2 "" = "" then none
              else some (((splitChar ',' c).map String.mk).getD 2 "")
            targetHandle := if ((splitChar ',' c).map String.mk).getD 3 "" = "" then none
              else some (((splitChar ',' c).map String.mk).getD 3 "")
            data := { label := if ((splitChar ',' c).map String.mk).getD 7 "" = "" then none
                        else some (((splitChar ',' c).map String.mk).getD 7 "")
                      lineStyle := orS (((splitChar ',' c).map String.mk).getD 4 "") "solid"
                      lineWidth := 2
                      lineColor := orS (((splitChar ',' c).map String.mk).getD 5 "") "#b1b1b7"
                      arrowStyle := orS (((splitChar ',' c).map String.mk).getD 6 "") "end"
                      curveStyle := orS (((splitChar ',' c).map String.mk).getD 1 "") "straight"
                      controlPoint1X := if ((splitChar ',' c).map String.mk).getD 1 "" = "bezier"
                          ∧ (((splitChar ',' c).map String.mk).drop 8).length ≥ 4
                        then some (jsParseNum ((((splitChar ',' c).map String.mk).drop 8).getD 0 "")) else none
                      controlPoint1Y := if ((splitChar ',' c).map String.mk).getD 1 "" = "bezier"
                          ∧ (((splitChar ',' c).map String.mk).drop 8).length ≥ 4
                        then some (jsParseNum ((((splitChar ',' c).map String.mk).drop 8).getD 1 "")) else none
                      controlPoint2X := if ((splitChar ',' c).map String.mk).getD 1 "" = "bezier"
                          ∧ (((splitChar ',' c).map String.mk).drop 8).length ≥ 4
                        then some (jsParseNum ((((splitChar ',' c).map String.mk).drop 8).getD 2 "")) else none
                      controlPoint2Y := if ((splitChar ',' c).map String.mk).getD 1 "" = "bezier"
                          ∧ (((splitChar ',' c).map String.mk).drop 8).length ≥ 4
                        then some (jsParseNum ((((splitChar ',' c).map String.mk).drop 8).getD 3 "")) else none } } := by
        unfold parseEntry
        rw [if_neg h]
      have hfil : 8 ≤ (splitChar ',' c).length := by
        rw [List.length_map] at h
        omega
      constructor
      · simp only [parseEntries, hsome, List.filter_cons]
        simp [hfil, ih1]
      · intro ed hed
        simp only [parseEntries, hsome] at hed
        rcases List.mem_cons.mp hed with rfl | hed'
        · exact ⟨rfl, c, List.mem_cons_self c cs, hfil, rfl⟩
        · obtain ⟨h1, cc, hcc, h2⟩ := ih2 ed hed'
          exact ⟨h1, cc, List.mem_cons_of_mem c hcc, h2⟩

/-- C10: a packed-connection entry splitting into fewer than 8 comma
separated parts yields no edge, while decoding continues: the number of
edges produced from a packed field equals the number of (non-whitespace)
entries with at least 8 parts, and every produced edge originates from such
an entry (source = the row id, target = the entry's first part). -/
theorem malformed_packed_entries_skipped (rid : String) (s : String) :
    (parsePacked rid s).length =
      (((splitChar ';' s.data).filter (fun c => jsTrim (String.mk c) ≠ "")).filter
        (fun c => 8 ≤ (splitChar ',' c).length)).length ∧
    ∀ ed ∈ parsePacked rid s, ed.source = rid ∧
      ∃ c ∈ (splitChar ';' s.data).filter (fun c => jsTrim (String.mk c) ≠ ""),
        8 ≤ (splitChar ',' c).length ∧
        ed.target = ((splitChar ',' c).map String.mk).getD 0 "" :=
  parseEntries_spec rid ((splitChar ';' s.data).filter (fun c => jsTrim (String.mk c) ≠ "")) 0

def defaultEdge : FlowEdge :=
  { id := "", source := "", target := "", sourceHandle := none, targetHandle := none
    data := { label := none, lineStyle := "solid", lineWidth := 2, lineColor := "gray"
              arrowStyle := "end", curveStyle := "straight"
              controlPoint1X := none, controlPoint1Y := none
              controlPoint2X := none, controlPoint2Y := none } }

/-- A packed field with one well-formed entry followed by one malformed
(too-short) entry. -/
def samplePacked : String := "node-2,straight,bottom,top,solid,red,end,lbl;bad,entry"

/-- Witness for C10 at a concrete packed field: the malformed second entry
is skipped, the well-formed first entry still decodes. -/
theorem malformed_packed_entries_skipped_witness :
    ((parsePacked "node-1" samplePacked).getD 0 defaultEdge).source = "node-1" ∧
    (parsePacked "node-1" samplePacked).length = 1 :=
  ⟨((malformed_packed_entries_skipped "node-1" samplePacked).2
      ((parsePacked "node-1" samplePacked).getD 0 defaultEdge) (by decide)).1,
   by rw [(malformed_packed_entries_skipped "node-1" samplePacked).1]; decide⟩

/-- An all-default CSV row to build concrete examples from. -/
def sampleRow : CSVRow :=
  { ID := "", ParentID := "", Label := "", DeathDate := "", Kunya := ""
    Nasab := "", Nisba := "", Shuhra := "", Biography := "", NodeShape := ""
    NodeFillColor := "", BorderStyle := "", BorderWidth := none, BorderColor := ""
    LineStyle := "", LineWidth := none, LineColor := "", ArrowStyle := ""
    LineLabel := "", X := none, Y := none, Width := none, Height := none
    ConnectionData := "" }

/-- A concrete layout engine that moves every node to (999, 999); used to
observe whether the decoder invoked the engine. -/
def L999 : LayoutFn := fun ns _ => ns.map (fun n => { n with x := 999, y := 999 })

/-- Row missing both coordinates but carrying a packed-connection field. -/
def rowNoXYPacked : CSVRow :=
  { sampleRow with ID := "node-1"
                   ConnectionData := "node-2,straight,bottom,top,solid,red,end,lbl" }

/-- Row with coordinates and no packed field. -/
def rowWithXY : CSVRow := { sampleRow with ID := "node-2", X := some 5, Y := some 5 }

/-- C6 counterexample: a file with a row missing X/Y is NOT auto-laid-out
when any row carries a packed-connection field — the decoder returns the raw
(partially default-positioned) nodes, not the layout engine's output. -/
theorem layout_skipped_when_connection_data_present :
    needsAutoLayout [rowNoXYPacked, rowWithXY] = true ∧
    parseRows L999 [rowNoXYPacked, rowWithXY] ≠
      { nodes := L999 (decodeNodes 0 [rowNoXYPacked, rowWithXY])
          (decodeEdges (hasAnyConnectionData [rowNoXYPacked, rowWithXY])
            [rowNoXYPacked, rowWithXY])
        edges := decodeEdges (hasAnyConnectionData [rowNoXYPacked, rowWithXY])
          [rowNoXYPacked, rowWithXY] } ∧
    (parseRows L999 [rowNoXYPacked, rowWithXY]).nodes.map (fun n => n.x) = [0, 5] := by
  refine ⟨by decide, by decide, by decide⟩

/-- C6 (amended): the decoder invokes the layout engine exactly when some
row omits X or Y AND no row carries a packed-connection field; when packed
data is present anywhere, missing coordinates stay at the default 0 and the
engine is not invoked. -/
theorem parseRows_layout_condition (L : LayoutFn) (rows : List CSVRow) :
    (needsAutoLayout rows = true → hasAnyConnectionData rows = false →
      parseRows L rows =
        { nodes := L (decodeNodes 0 rows) (decodeEdges false rows)
          edges := decodeEdges false rows }) ∧
    (hasAnyConnectionData rows = true →
      parseRows L rows =
        { nodes := decodeNodes 0 rows, edges := decodeEdges true rows }) ∧
    (needsAutoLayout rows = false →
      parseRows L rows =
        { nodes := decodeNodes 0 rows
          edges := decodeEdges (hasAnyConnectionData rows) rows }) := by
  refine ⟨?_, ?_, ?_⟩
  · intro h1 h2
    unfold parseRows
    rw [h2]
    simp [h1]
  · intro h
    unfold parseRows
    rw [h]
    simp
  · intro h
    unfold parseRows
    rw [h]
    simp

/-- Row missing coordinates, no packed field, with a parent reference. -/
def rowNoXYPlain : CSVRow := { sampleRow with ID := "node-2", ParentID := "node-1" }

def rowNoXYRoot : CSVRow := { sampleRow with ID := "node-1" }

/-- Witness for C6's amended theorem: a two-row file with missing
coordinates and no packed data IS routed through the layout engine. -/
theorem parseRows_layout_condition_witness :
    parseRows L999 [rowNoXYRoot, rowNoXYPlain] =
      { nodes := L999 (decodeNodes 0 [rowNoXYRoot, rowNoXYPlain])
          (decodeEdges false [rowNoXYRoot, rowNoXYPlain])
        edges := decodeEdges false [rowNoXYRoot, rowNoXYPlain] } :=
  (parseRows_layout_condition L999 [rowNoXYRoot, rowNoXYPlain]).1 (by decide) (by decide)

/- ### C9: frame effect of `deleteEdges` -/

/-- Clearing a node's parent reference. -/
def clearNode (n : FlowNode) : FlowNode :=
  { n with data := { n.data with parentId := none } }

/-- The exact condition under which deleting edge `e` clears `n.parentId`:
the hierarchical handle pair with `n` as the child end and `n.data.parentId`
equal to the opposite endpoint. -/
def hierClears (e : FlowEdge) (n : FlowNode) : Prop :=
  (e.sourceHandle = some "top" ∧ e.targetHandle = some "bottom" ∧
    e.source = n.id ∧ n.data.parentId = some e.target) ∨
  (e.sourceHandle = some "bottom" ∧ e.targetHandle = some "top" ∧
    e.target = n.id ∧ n.data.parentId = some e.source)

instance (e : FlowEdge) (n : FlowNode) : Decidable (hierClears e n) := by
  unfold hierClears; exact inferInstance

/-- A deleted edge in `edgeIds` clears `n`'s parent reference. -/
def parentClearedBy (edges : List FlowEdge) (edgeIds : List String) (n : FlowNode) : Prop :=
  ∃ e ∈ edges, e.id ∈ edgeIds ∧ hierClears e n

instance (edges : List FlowEdge) (edgeIds : List String) (n : FlowNode) :
    Decidable (parentClearedBy edges edgeIds n) := by
  unfold parentClearedBy; exact inferInstance

theorem clearParentFirst_eq_map (nid pid : String) (l : List FlowNode)
    (hnd : (l.map (fun n => n.id)).Nodup) :
    clearParentFirst nid pid l =
      l.map (fun n => if n.id = nid ∧ n.data.parentId = some pid then clearNode n else n) := by
  induction l with
  | nil => rfl
  | cons m ms ih =>
    simp only [List.map_cons, List.nodup_cons] at hnd
    obtain ⟨hm, hms⟩ := hnd
    unfold clearParentFirst
    by_cases h : m.id = nid
    · rw [if_pos h]
      have htail : ms.map (fun n => if n.id = nid ∧ n.data.parentId = some pid
          then clearNode n else n) = ms := by
        have : ∀ n ∈ ms, (if n.id = nid ∧ n.data.parentId = some pid
            then clearNode n else n) = id n := by
          intro n hn
          have : n.id ≠ nid := by
            intro he
            exact hm (by rw [← h] at he; exact he ▸ List.mem_map_of_mem _ hn)
          simp [this]
        rw [List.map_congr_left this, List.map_id]
      rw [List.map_cons, htail]
      by_cases hp : m.data.parentId = some pid
      · rw [if_pos hp, if_pos ⟨h, hp⟩]
        rfl
      · rw [if_neg hp, if_neg (fun hc => hp hc.2)]
    · rw [if_neg h, List.map_cons, if_neg (fun hc => h hc.1), ih hms]

theorem clearParentFirst_map_id (nid pid : String) (l : List FlowNode) :
    (clearParentFirst nid pid l).map (fun n => n.id) = l.map (fun n => n.id) := by
  induction l with
  | nil => rfl
  | cons m ms ih =>
    unfold clearParentFirst
    by_cases h : m.id = nid
    · rw [if_pos h]
      by_cases hp : m.data.parentId = some pid <;> simp [hp]
    · rw [if_neg h]
      simp [ih]

theorem deleteEdgesStep_none {edges : List FlowEdge} {nodes : List FlowNode}
    {eid : String} (h : edges.find? (fun e => e.id = eid) = none) :
    deleteEdgesStep edges nodes eid = nodes := by
  unfold deleteEdgesStep
  rw [h]

theorem deleteEdgesStep_some {edges : List FlowEdge} {nodes : List FlowNode}
    {eid : String} {e : FlowEdge} (h : edges.find? (fun x => x.id = eid) = some e) :
    deleteEdgesStep edges nodes eid =
      (if e.sourceHandle = some "top" ∧ e.targetHandle = some "bottom" then
        clearParentFirst e.source e.target nodes
      else if e.sourceHandle = some "bottom" ∧ e.targetHandle = some "top" then
        clearParentFirst e.target e.source nodes
      else nodes) := by
  unfold deleteEdgesStep
  rw [h]

theorem deleteEdgesStep_map_id (edges : List FlowEdge) (nodes : List FlowNode)
    (eid : String) :
    (deleteEdgesStep edges nodes eid).map (fun n => n.id) = nodes.map (fun n => n.id) := by
  cases h : edges.find? (fun e => e.id = eid) with
  | none => rw [deleteEdgesStep_none h]
  | some e =>
    rw [deleteEdgesStep_some h]
    by_cases h1 : e.sourceHandle = some "top" ∧ e.targetHandle = some "bottom"
    · rw [if_pos h1]
      exact clearParentFirst_map_id e.source e.target nodes
    · rw [if_neg h1]
      by_cases h2 : e.sourceHandle = some "bottom" ∧ e.targetHandle = some "top"
      · rw [if_pos h2]
        exact clearParentFirst_map_id e.target e.source nodes
      · rw [if_neg h2]

theorem find_edge_unique {edges : List FlowEdge}
    (he : (edges.map (fun e => e.id)).Nodup) {eid : String} {e e' : FlowEdge}
    (hf : edges.find? (fun x => x.id = eid) = some e)
    (hm : e' ∈ edges) (hid : e'.id = eid) : e' = e := by
  have h1 : e ∈ edges := List.mem_of_find?_eq_some hf
  have h2 : e.id = eid := by simpa using List.find?_some hf
  exact List.inj_on_of_nodup_map he hm h1 (by rw [hid, h2])

theorem foldl_deleteEdgesStep (edges : List FlowEdge)
    (he : (edges.map (fun e => e.id)).Nodup) :
    ∀ (edgeIds : List String) (nodes : List FlowNode),
      (nodes.map (fun n => n.id)).Nodup →
      edgeIds.foldl (deleteEdgesStep edges) nodes =
        nodes.map (fun n => if parentClearedBy edges edgeIds n then clearNode n else n) := by
  intro edgeIds
  induction edgeIds with
  | nil =>
    intro nodes _
    simp only [List.foldl_nil]
    have hid : ∀ n ∈ nodes, (if parentClearedBy edges [] n then clearNode n else n) = id n := by
      intro n _
      rw [if_neg]
      · rfl
      · rintro ⟨e, _, hmem, _⟩
        simp at hmem
    rw [List.map_congr_left hid, List.map_id]
  | cons eid rest ih =>
    intro nodes hn
    simp only [List.foldl_cons]
    have hn' : ((deleteEdgesStep edges nodes eid).map (fun n => n.id)).Nodup := by
      rw [deleteEdgesStep_map_id]; exact hn
    rw [ih (deleteEdgesStep edges nodes eid) hn']
    cases hf : edges.find? (fun x => x.id = eid) with
    | none =>
      rw [deleteEdgesStep_none hf]
      apply List.map_congr_left
      intro n _
      apply if_congr _ rfl rfl
      constructor
      · rintro ⟨e, he1, he2, he3⟩
        exact ⟨e, he1, List.mem_cons_of_mem _ he2, he3⟩
      · rintro ⟨e, he1, he2, he3⟩
        rcases List.mem_cons.mp he2 with h | h
        · exact absurd (by simp [h] : (fun x => decide (x.id = eid)) e = true)
            (List.find?_eq_none.mp hf e he1)
        · exact ⟨e, he1, h, he3⟩
    | some e =>
      rw [deleteEdgesStep_some hf]
      have hee : e ∈ edges := List.mem_of_find?_eq_some hf
      have heid : e.id = eid := by simpa using List.find?_some hf
      by_cases h1 : e.sourceHandle = some "top" ∧ e.targetHandle = some "bottom"
      · rw [if_pos h1, clearParentFirst_eq_map _ _ _ hn, List.map_map]
        apply List.map_congr_left
        intro n _
        simp only [Function.comp_apply]
        by_cases hg : n.id = e.source ∧ n.data.parentId = some e.target
        · rw [if_pos hg]
          have hnot : ¬ parentClearedBy edges rest (clearNode n) := by
            rintro ⟨e', _, _, hcl⟩
            rcases hcl with ⟨_, _, _, hp⟩ | ⟨_, _, _, hp⟩ <;> simp [clearNode] at hp
          have hyes : parentClearedBy edges (eid :: rest) n :=
            ⟨e, hee, by rw [heid]; exact List.mem_cons_self _ _,
              Or.inl ⟨h1.1, h1.2, hg.1.symm, hg.2⟩⟩
          rw [if_neg hnot, if_pos hyes]
        · rw [if_neg hg]
          apply if_congr _ rfl rfl
          constructor
          · rintro ⟨e', a, b, c⟩
            exact ⟨e', a, List.mem_cons_of_mem _ b, c⟩
          · rintro ⟨e', he1', he2', he3'⟩
            rcases List.mem_cons.mp he2' with h | h
            · have heq : e' = e := find_edge_unique he hf he1' h
              subst heq
              rcases he3' with ⟨_, _, hsrc, hpar⟩ | ⟨hbh, _, _, _⟩
              · exact absurd ⟨hsrc.symm, hpar⟩ hg
              · rw [h1.1] at hbh
                simp at hbh
            · exact ⟨e', he1', h, he3'⟩
      · rw [if_neg h1]
        by_cases h2 : e.sourceHandle = some "bottom" ∧ e.targetHandle = some "top"
        · rw [if_pos h2, clearParentFirst_eq_map _ _ _ hn, List.map_map]
          apply List.map_congr_left
          intro n _
          simp only [Function.comp_apply]
          by_cases hg : n.id = e.target ∧ n.data.parentId = some e.source
          · rw [if_pos hg]
            have hnot : ¬ parentClearedBy edges rest (clearNode n) := by
              rintro ⟨e', _, _, hcl⟩
              rcases hcl with ⟨_, _, _, hp⟩ | ⟨_, _, _, hp⟩ <;> simp [clearNode] at hp
            have hyes : parentClearedBy edges (eid :: rest) n :=
              ⟨e, hee, by rw [heid]; exact List.mem_cons_self _ _,
                Or.inr ⟨h2.1, h2.2, hg.1.symm, hg.2⟩⟩
            rw [if_neg hnot, if_pos hyes]
          · rw [if_neg hg]
            apply if_congr _ rfl rfl
            constructor
            · rintro ⟨e', a, b, c⟩
              exact ⟨e', a, List.mem_cons_of_mem _ b, c⟩
            · rintro ⟨e', he1', he2', he3'⟩
              rcases List.mem_cons.mp he2' with h | h
              · have heq : e' = e := find_edge_unique he hf he1' h
                subst heq
                rcases he3' with ⟨hth, _, _, _⟩ | ⟨_, _, htg, hpar⟩
                · rw [h2.1] at hth
                  simp at hth
                · exact absurd ⟨htg.symm, hpar⟩ hg
              · exact ⟨e', he1', h, he3'⟩
        · rw [if_neg h2]
          apply List.map_congr_left
          intro n _
          apply if_congr _ rfl rfl
          constructor
          · rintro ⟨e', a, b, c⟩
            exact ⟨e', a, List.mem_cons_of_mem _ b, c⟩
          · rintro ⟨e', he1', he2', he3'⟩
            rcases List.mem_cons.mp he2' with h | h
            · have heq : e' = e := find_edge_unique he hf he1' h
              subst heq
              rcases he3' with ⟨ha, hb, _, _⟩ | ⟨ha, hb, _, _⟩
              · exact absurd ⟨ha, hb⟩ h1
              · exact absurd ⟨ha, hb⟩ h2
            · exact ⟨e', he1', h, he3'⟩

/-- C9: `deleteEdges` touches the node collection only by clearing
`parentId`s: a node's `parentId` is cleared exactly when some deleted edge
has the hierarchical handle pair (`top`→`bottom` or `bottom`→`top`) with the
node at the child end and the node's `parentId` equal to the opposite
endpoint; every other node field, and every node not matched this way, is
left completely unchanged, and the edge collection is filtered by id. -/
theorem deleteEdges_frame_effect (st : StoreState) (edgeIds : List String)
    (hn : (st.nodes.map (fun n => n.id)).Nodup)
    (he : (st.edges.map (fun e => e.id)).Nodup) :
    (deleteEdges edgeIds st).nodes =
      st.nodes.map (fun n => if parentClearedBy st.edges edgeIds n then clearNode n else n) ∧
    (deleteEdges edgeIds st).edges =
      st.edges.filter (fun e => ¬ edgeIds.contains e.id) :=
  ⟨foldl_deleteEdgesStep st.edges he edgeIds st.nodes hn, rfl⟩

/-- A store with a parent, its child (hierarchical edge `hier-1`), and an
unrelated plain edge `plain-1`. -/
def hierState : StoreState :=
  { nodes := [{ id := "node-1", x := 0, y := 0, data := sampleData },
              { id := "node-2", x := 0, y := 100
                data := { sampleData with parentId := some "node-1" } }]
    edges := [{ id := "hier-1", source := "node-1", target := "node-2"
                sourceHandle := some "bottom", targetHandle := some "top"
                data := defaultEdge.data },
              { id := "plain-1", source := "node-2", target := "node-1"
                sourceHandle := some "left", targetHandle := some "right"
                data := defaultEdge.data }]
    selectedNodes := [], selectedEdges := [], unsavedChanges := false }

/-- Witness for C9: deleting the hierarchical edge clears the child's
`parentId`; the frame-effect characterization evaluates as predicted. -/
theorem deleteEdges_frame_effect_witness :
    (deleteEdges ["hier-1"] hierState).nodes =
      hierState.nodes.map
        (fun n => if parentClearedBy hierState.edges ["hier-1"] n then clearNode n else n) ∧
    (deleteEdges ["hier-1"] hierState).edges =
      hierState.edges.filter (fun e => ¬ (["hier-1"] : List String).contains e.id) :=
  deleteEdges_frame_effect hierState ["hier-1"] (by decide) (by decide)

/- ### C8: silent no-ops on missing ids -/

theorem rewriteParent_nil (o : Option String) : rewriteParent [] o = o := by
  cases o with
  | none => rfl
  | some p =>
    unfold rewriteParent
    by_cases h : p = "" <;> simp [h, List.find?]

theorem rewriteEdge_nil (e : FlowEdge) : rewriteEdge [] e = e := by
  unfold rewriteEdge mlookup
  simp only [List.find?]
  rw [jsReplaceFirst_self, jsReplaceFirst_self]

theorem assignIds_nil_of_canonical : ∀ (l : List FlowNode) (k : Nat),
    (∀ i (h : i < l.length), l[i].id = mkNodeId (k + i + 1)) →
    assignIds [] k l = l := by
  intro l
  induction l with
  | nil => intro k _; rfl
  | cons n ns ih =>
    intro k hc
    have h0 : n.id = mkNodeId (k + 1) := by
      have := hc 0 (by simp)
      simpa using this
    have htail : assignIds [] (k + 1) ns = ns := by
      apply ih
      intro i h
      have harg : k + 1 + i + 1 = k + (i + 1) + 1 := by omega
      rw [harg]
      simpa using hc (i + 1) (by simpa using Nat.succ_lt_succ h)
    unfold assignIds
    rw [htail, rewriteParent_nil, ← h0]

theorem renumMapping_nil_of_canonical : ∀ (l : List FlowNode) (k : Nat),
    (∀ i (h : i < l.length), l[i].id = mkNodeId (k + i + 1)) →
    renumMapping k l = [] := by
  intro l
  induction l with
  | nil => intro k _; rfl
  | cons n ns ih =>
    intro k hc
    have h0 : n.id = mkNodeId (k + 1) := by simpa using hc 0 (by simp)
    have htail : renumMapping (k + 1) ns = [] := by
      apply ih
      intro i h
      have harg : k + 1 + i + 1 = k + (i + 1) + 1 := by omega
      rw [harg]
      simpa using hc (i + 1) (by simpa using Nat.succ_lt_succ h)
    unfold renumMapping
    simp [h0, htail]

theorem sortNodes_eq_self_of_sorted : ∀ (l : List FlowNode),
    List.Pairwise (fun a b => nodeKey a ≤ nodeKey b) l → sortNodes l = l := by
  intro l
  induction l with
  | nil => intro _; rfl
  | cons x xs ih =>
    intro hp
    rcases List.pairwise_cons.mp hp with ⟨hx, hxs⟩
    show insertByKey x (sortNodes xs) = x :: xs
    rw [ih hxs]
    cases xs with
    | nil => rfl
    | cons m ms =>
      unfold insertByKey
      rw [if_pos (hx m (List.mem_cons_self m ms))]

/-- The canonical post-renumbering shape of the node list: position `i`
holds id `node-(i+1)`. -/
def canonicalIds (l : List FlowNode) : Prop :=
  l.map (fun n => n.id) = (List.range l.length).map (fun i => mkNodeId (i + 1))

instance (l : List FlowNode) : Decidable (canonicalIds l) := by
  unfold canonicalIds; exact inferInstance

theorem canonicalIds_getElem {l : List FlowNode} (h : canonicalIds l)
    {i : Nat} (hi : i < l.length) : l[i].id = mkNodeId (i + 1) := by
  unfold canonicalIds at h
  have h1 := congrArg (fun xs : List String => xs[i]?) h
  simp only [List.getElem?_map, List.getElem?_eq_getElem hi,
    List.getElem?_range hi, Option.map_some'] at h1
  exact Option.some.injEq _ _ ▸ h1

theorem recalculateNodeIds_id_of_canonical (st : StoreState)
    (h : canonicalIds st.nodes) :
    (recalculateNodeIds st).nodes = st.nodes ∧
    (recalculateNodeIds st).edges = st.edges ∧
    (recalculateNodeIds st).selectedNodes = st.selectedNodes := by
  have hsorted : sortNodes st.nodes = st.nodes := by
    apply sortNodes_eq_self_of_sorted
    rw [List.pairwise_iff_getElem]
    intro i j hi hj hij
    have h1 : st.nodes[i].id = mkNodeId (i + 1) := canonicalIds_getElem h hi
    have h2 : st.nodes[j].id = mkNodeId (j + 1) := canonicalIds_getElem h hj
    unfold nodeKey
    rw [h1, h2, digitSuffix_mkNodeId, digitSuffix_mkNodeId]
    omega
  have hmap : renumMapping 0 (sortNodes st.nodes) = [] := by
    rw [hsorted]
    apply renumMapping_nil_of_canonical
    intro i hi
    simpa using canonicalIds_getElem h hi
  have hassign : assignIds [] 0 (sortNodes st.nodes) = st.nodes := by
    rw [hsorted]
    apply assignIds_nil_of_canonical
    intro i hi
    simpa using canonicalIds_getElem h hi
  refine ⟨?_, ?_, ?_⟩
  · show assignIds (renumMapping 0 (sortNodes st.nodes)) 0 (sortNodes st.nodes) = st.nodes
    rw [hmap, hassign]
  · show st.edges.map (rewriteEdge (renumMapping 0 (sortNodes st.nodes))) = st.edges
    rw [hmap]
    rw [List.map_congr_left (fun e _ => rewriteEdge_nil e)]
    simp
  · show st.selectedNodes.map (mlookup (renumMapping 0 (sortNodes st.nodes))) = st.selectedNodes
    rw [hmap]
    have : ∀ s ∈ st.selectedNodes, mlookup [] s = id s := by
      intro s _
      rfl
    rw [List.map_congr_left this, List.map_id]

theorem foldl_deleteEdgesStep_none (edges : List FlowEdge) :
    ∀ (edgeIds : List String) (nodes : List FlowNode),
      (∀ eid ∈ edgeIds, edges.find? (fun x => x.id = eid) = none) →
      edgeIds.foldl (deleteEdgesStep edges) nodes = nodes := by
  intro edgeIds
  induction edgeIds with
  | nil => intro nodes _; rfl
  | cons eid rest ih =>
    intro nodes h
    simp only [List.foldl_cons]
    rw [deleteEdgesStep_none (h eid (List.mem_cons_self eid rest))]
    exact ih nodes (fun x hx => h x (List.mem_cons_of_mem eid hx))

def emptyPatch : EdgePatch :=
  { label := none, lineStyle := none, lineWidth := none, lineColor := none
    arrowStyle := none, curveStyle := none, controlPoint1X := none
    controlPoint1Y := none, controlPoint2X := none, controlPoint2Y := none }

/-- C8 (amended): `updateNode`, `updateEdge` and `deleteEdges` given ids
matching no live node/edge are silent no-ops (the whole state, hence the
collections, is unchanged; nothing is thrown — all operations are total);
`deleteNodes` with stale ids leaves the collections unchanged provided the
node list is already in the canonical renumbered shape and every `parentId`
refers to a live node — otherwise it still renumbers (see the
counterexample). -/
theorem store_missing_id_noops (st : StoreState) (nid : String)
    (f : NodeData → NodeData) (eid : String) (patch : EdgePatch)
    (delIds edelIds : List String) :
    ((∀ n ∈ st.nodes, n.id ≠ nid) → updateNode nid f st = st) ∧
    ((∀ e ∈ st.edges, e.id ≠ eid) → updateEdge eid patch st = st) ∧
    ((∀ e ∈ st.edges, ¬ e.id ∈ edelIds) →
      (deleteEdges edelIds st).nodes = st.nodes ∧
      (deleteEdges edelIds st).edges = st.edges) ∧
    (canonicalIds st.nodes →
      (∀ n ∈ st.nodes, ∀ p, n.data.parentId = some p →
        p ∈ st.nodes.map (fun n => n.id)) →
      (∀ e ∈ st.edges, e.source ∈ st.nodes.map (fun n => n.id) ∧
        e.target ∈ st.nodes.map (fun n => n.id)) →
      (∀ n ∈ st.nodes, ¬ n.id ∈ delIds) →
      (deleteNodes delIds st).nodes = st.nodes ∧
      (deleteNodes delIds st).edges = st.edges) := by
  refine ⟨?_, ?_, ?_, ?_⟩
  · intro h
    unfold updateNode
    rw [List.find?_eq_none.mpr (fun n hn => by simp [h n hn])]
  · intro h
    unfold updateEdge
    rw [List.findIdx?_eq_none_iff.mpr (fun e he => by simp [h e he])]
  · intro h
    constructor
    · show edelIds.foldl (deleteEdgesStep st.edges) st.nodes = st.nodes
      apply foldl_deleteEdgesStep_none
      intro x _
      rw [List.find?_eq_none]
      intro e he
      simp only [decide_eq_true_eq]
      intro hex
      exact h e he (hex ▸ ‹x ∈ edelIds›)
    · show st.edges.filter (fun e => ¬ edelIds.contains e.id) = st.edges
      rw [List.filter_eq_self]
      intro e he
      simp [List.elem_iff, h e he]
  · intro hcanon hlive hedge hstale
    have hrawn : (deleteNodesRaw delIds st).nodes = st.nodes := by
      show ((st.nodes.filter (fun n => ¬ delIds.contains n.id)).map _) = st.nodes
      have hfil : st.nodes.filter (fun n => ¬ delIds.contains n.id) = st.nodes := by
        rw [List.filter_eq_self]
        intro n hn
        simp [List.elem_iff, hstale n hn]
      rw [hfil]
      have hcl : ∀ n ∈ st.nodes,
          (match n.data.parentId with
            | some p => if p ≠ "" ∧ delIds.contains p
                then { n with data := { n.data with parentId := none } } else n
            | none => n) = id n := by
        intro n hn
        cases hp : n.data.parentId with
        | none => rfl
        | some p =>
          simp only [id]
          rw [if_neg]
          rintro ⟨-, hpc⟩
          have hpm : p ∈ delIds := by simpa [List.elem_iff] using hpc
          have hpl : p ∈ st.nodes.map (fun n => n.id) := hlive n hn p hp
          obtain ⟨m, hm, hmid⟩ := List.mem_map.mp hpl
          exact hstale m hm (hmid ▸ hpm)
      rw [List.map_congr_left hcl, List.map_id]
    have hrawe : (deleteNodesRaw delIds st).edges = st.edges := by
      show st.edges.filter _ = st.edges
      rw [List.filter_eq_self]
      intro e he
      obtain ⟨hs, ht⟩ := hedge e he
      obtain ⟨ms, hms, hmsid⟩ := List.mem_map.mp hs
      obtain ⟨mt, hmt, hmtid⟩ := List.mem_map.mp ht
      have h1 : e.source ∉ delIds := fun hx => hstale ms hms (hmsid ▸ hx)
      have h2 : e.target ∉ delIds := fun hx => hstale mt hmt (hmtid ▸ hx)
      simp [List.elem_iff, h1, h2]
    have hrec := recalculateNodeIds_id_of_canonical (deleteNodesRaw delIds st)
      (by rw [show canonicalIds (deleteNodesRaw delIds st).nodes =
            canonicalIds st.nodes from congrArg canonicalIds hrawn]
          exact hcanon)
    exact ⟨hrec.1.trans hrawn, hrec.2.1.trans hrawe⟩

/-- A store whose single node id is not in canonical renumbered shape
(reachable through `importData` of a CSV whose `ID` column is `node-2`). -/
def badIdState : StoreState :=
  { nodes := [{ id := "node-2", x := 0, y := 0, data := sampleData }]
    edges := [], selectedNodes := [], selectedEdges := [], unsavedChanges := false }

/-- C8 counterexample: `deleteNodes` with an id matching no live node is NOT
a no-op on the node collection — it renumbers `node-2` to `node-1`. -/
theorem deleteNodes_stale_id_renumbers :
    (∀ n ∈ badIdState.nodes, n.id ≠ "node-9") ∧
    (deleteNodes ["node-9"] badIdState).nodes ≠ badIdState.nodes ∧
    (deleteNodes ["node-9"] badIdState).nodes.map (fun n => n.id) = ["node-1"] := by
  refine ⟨by decide, by decide, by decide⟩

/-- Witness for C8 at a canonical two-node store with a stale node id and a
stale edge id. -/
theorem store_missing_id_noops_witness :
    updateNode "node-9" (fun d => d) twoNodeState = twoNodeState ∧
    ((deleteNodes ["node-9"] twoNodeState).nodes = twoNodeState.nodes ∧
      (deleteNodes ["node-9"] twoNodeState).edges = twoNodeState.edges) :=
  ⟨(store_missing_id_noops twoNodeState "node-9" (fun d => d) "e-9" emptyPatch
      ["node-9"] ["e-9"]).1 (by decide),
   (store_missing_id_noops twoNodeState "node-9" (fun d => d) "e-9" emptyPatch
      ["node-9"] ["e-9"]).2.2.2 (by decide) (by decide) (by decide) (by decide)⟩

/- ### C3: cascading delete -/

/-- The parent-clearing step of `deleteNodesRaw`, named for proofs. -/
def clearIfParentDeleted (ids : List String) (n : FlowNode) : FlowNode :=
  match n.data.parentId with
  | some p => if p ≠ "" ∧ ids.contains p
      then { n with data := { n.data with parentId := none } } else n
  | none => n

theorem deleteNodesRaw_nodes (ids : List String) (st : StoreState) :
    (deleteNodesRaw ids st).nodes =
      (st.nodes.filter (fun n => ¬ ids.contains n.id)).map (clearIfParentDeleted ids) := rfl

theorem clearIfParentDeleted_id (ids : List String) (n : FlowNode) :
    (clearIfParentDeleted ids n).id = n.id := by
  unfold clearIfParentDeleted
  cases n.data.parentId with
  | none => rfl
  | some p =>
    show (if p ≠ "" ∧ ids.contains p
        then { n with data := { n.data with parentId := none } } else n).id = n.id
    by_cases h : p ≠ "" ∧ ids.contains p
    · rw [if_pos h]
    · rw [if_neg h]

/-- Every key in the renumbering association is the id of a listed node. -/
theorem renumMapping_keys : ∀ (l : List FlowNode) (k : Nat) (p : String × String),
    p ∈ renumMapping k l → p.1 ∈ l.map (fun n => n.id) := by
  intro l
  induction l with
  | nil => intro k p hp; simp [renumMapping] at hp
  | cons n ns ih =>
    intro k p hp
    unfold renumMapping at hp
    by_cases h : n.id = mkNodeId (k + 1)
    · rw [if_pos h] at hp
      exact List.mem_cons_of_mem _ (ih (k + 1) p hp)
    · rw [if_neg h] at hp
      rcases List.mem_cons.mp hp with rfl | hp'
      · simp
      · exact List.mem_cons_of_mem _ (ih (k + 1) p hp')

/-- Looking the id of the node at position `i` up in the renumbering
association yields `node-(k+i+1)` (distinct ids). -/
theorem mlookup_renumMapping : ∀ (l : List FlowNode),
    (l.map (fun n => n.id)).Nodup →
    ∀ (k i : Nat) (hi : i < l.length),
      mlookup (renumMapping k l) (l[i].id) = mkNodeId (k + i + 1) := by
  intro l
  induction l with
  | nil => intro _ k i hi; simp at hi
  | cons n ns ih =>
    intro hnd k i hi
    simp only [List.map_cons, List.nodup_cons] at hnd
    obtain ⟨hm, hms⟩ := hnd
    cases i with
    | zero =>
      simp only [List.getElem_cons_zero]
      unfold renumMapping
      by_cases h : n.id = mkNodeId (k + 1)
      · rw [if_pos h]
        unfold mlookup
        have hfind : (renumMapping (k + 1) ns).find? (fun p => p.1 = n.id) = none := by
          rw [List.find?_eq_none]
          intro p hp
          simp only [decide_eq_true_eq]
          intro hpk
          exact hm (hpk ▸ renumMapping_keys ns (k + 1) p hp)
        rw [hfind, h]
      · rw [if_neg h]
        unfold mlookup
        rw [List.find?_cons_of_pos _ (by simp)]
    | succ i' =>
      have hi' : i' < ns.length := by simpa using hi
      simp only [List.getElem_cons_succ]
      have hkey : ns[i'].id ∈ ns.map (fun x => x.id) :=
        List.mem_map_of_mem _ (List.getElem_mem _)
      have hkne : ns[i'].id ≠ n.id := fun he => hm (he ▸ hkey)
      have harg : k + (i' + 1) + 1 = (k + 1) + i' + 1 := by omega
      rw [harg, ← ih hms (k + 1) i' hi']
      have hred : renumMapping k (n :: ns) =
          if n.id = mkNodeId (k + 1) then renumMapping (k + 1) ns
          else (n.id, mkNodeId (k + 1)) :: renumMapping (k + 1) ns := rfl
      rw [hred]
      by_cases h : n.id = mkNodeId (k + 1)
      · rw [if_pos h]
      · rw [if_neg h]
        unfold mlookup
        rw [List.find?_cons_of_neg _ (by simp [Ne.symm hkne])]

theorem assignIds_getElem : ∀ (m : List (String × String)) (k : Nat)
    (l : List FlowNode) (i : Nat) (hi : i < l.length)
    (hil : i < (assignIds m k l).length),
    (assignIds m k l)[i] =
      { l[i] with id := mkNodeId (k + i + 1)
                  data := { l[i].data with
                    parentId := rewriteParent m l[i].data.parentId } } := by
  intro m k l
  induction l generalizing k with
  | nil => intro i hi _; simp at hi
  | cons n ns ih =>
    intro i hi hil
    cases i with
    | zero => rfl
    | succ i' =>
      have hi' : i' < ns.length := by simpa using hi
      have hil' : i' < (assignIds m (k + 1) ns).length := by
        rw [assignIds_length]; exact hi'
      have harg : k + (i' + 1) + 1 = (k + 1) + i' + 1 := by omega
      have hstep : (assignIds m k (n :: ns))[i' + 1] =
          (assignIds m (k + 1) ns)[i'] := by
        simp only [assignIds, List.getElem_cons_succ]
      rw [hstep, ih (k + 1) i' hi' hil']
      simp only [List.getElem_cons_succ]
      rw [harg]

/-- C3: a single `deleteNodes` call cascades fully — every surviving edge
derives from an edge that touched no deleted node (so zero edges reference a
deleted node, for any number of deleted nodes including multi-level
parent-of-parent sets), and every surviving node reappears under the
renumbering map with its `parentId` cleared whenever it pointed at a deleted
node (so all K children of a deleted sole parent end with `parentId`
undefined). -/
theorem deleteNodes_cascade (st : StoreState) (ids : List String)
    (hnd : (st.nodes.map (fun n => n.id)).Nodup) (hne : "" ∉ ids) :
    (∀ e ∈ (deleteNodes ids st).edges, ∃ e₀ ∈ st.edges,
        e₀.source ∉ ids ∧ e₀.target ∉ ids ∧
        e.source = mlookup (renumMapping 0 (sortNodes (deleteNodesRaw ids st).nodes)) e₀.source ∧
        e.target = mlookup (renumMapping 0 (sortNodes (deleteNodesRaw ids st).nodes)) e₀.target) ∧
    (∀ n₀ ∈ st.nodes, n₀.id ∉ ids →
      ∃ n ∈ (deleteNodes ids st).nodes,
        n.id = mlookup (renumMapping 0 (sortNodes (deleteNodesRaw ids st).nodes)) n₀.id ∧
        ((∃ d, n₀.data.parentId = some d ∧ d ∈ ids) → n.data.parentId = none)) ∧
    (deleteNodes ids st).nodes.length =
      (st.nodes.filter (fun n => ¬ ids.contains n.id)).length := by
  have hraw_ids : ((deleteNodesRaw ids st).nodes).map (fun n => n.id) =
      (st.nodes.filter (fun n => ¬ ids.contains n.id)).map (fun n => n.id) := by
    rw [deleteNodesRaw_nodes, List.map_map]
    exact List.map_congr_left (fun x _ => clearIfParentDeleted_id ids x)
  have hnd_raw : (((deleteNodesRaw ids st).nodes).map (fun n => n.id)).Nodup := by
    rw [hraw_ids]
    exact ((List.filter_sublist st.nodes).map (fun n => n.id)).nodup hnd
  have hperm := sortNodes_perm (deleteNodesRaw ids st).nodes
  have hnd_sorted : ((sortNodes (deleteNodesRaw ids st).nodes).map (fun n => n.id)).Nodup :=
    ((hperm.map (fun n => n.id)).nodup_iff).mpr hnd_raw
  refine ⟨?_, ?_, ?_⟩
  · intro e he
    have he' : e ∈ ((deleteNodesRaw ids st).edges).map
        (rewriteEdge (renumMapping 0 (sortNodes (deleteNodesRaw ids st).nodes))) := he
    obtain ⟨e₀, he₀, rfl⟩ := List.mem_map.mp he'
    obtain ⟨hmem, hpred⟩ := List.mem_filter.mp he₀
    simp only [decide_eq_true_eq, Bool.and_eq_true, not_and, decide_not,
      Bool.not_eq_true', decide_eq_false_iff_not] at hpred
    refine ⟨e₀, hmem, ?_, ?_, rfl, rfl⟩
    · intro hx
      exact hpred.1 (List.elem_iff.mpr hx)
    · intro hx
      exact hpred.2 (List.elem_iff.mpr hx)
  · intro n₀ hn₀ hstale
    have hfil : n₀ ∈ st.nodes.filter (fun n => ¬ ids.contains n.id) := by
      rw [List.mem_filter]
      refine ⟨hn₀, ?_⟩
      simp [List.elem_iff, hstale]
    have hrawmem : clearIfParentDeleted ids n₀ ∈ (deleteNodesRaw ids st).nodes := by
      rw [deleteNodesRaw_nodes]
      exact List.mem_map_of_mem _ hfil
    have hsortmem : clearIfParentDeleted ids n₀ ∈ sortNodes (deleteNodesRaw ids st).nodes :=
      hperm.mem_iff.mpr hrawmem
    obtain ⟨i, hi, hgi⟩ := List.mem_iff_getElem.mp hsortmem
    have hlen : i < (assignIds (renumMapping 0 (sortNodes (deleteNodesRaw ids st).nodes)) 0
        (sortNodes (deleteNodesRaw ids st).nodes)).length := by
      rw [assignIds_length]
      exact hi
    refine ⟨(assignIds (renumMapping 0 (sortNodes (deleteNodesRaw ids st).nodes)) 0
        (sortNodes (deleteNodesRaw ids st).nodes))[i], List.getElem_mem hlen, ?_, ?_⟩
    · rw [assignIds_getElem _ 0 _ i hi hlen]
      have hid : (sortNodes (deleteNodesRaw ids st).nodes)[i].id = n₀.id := by
        rw [hgi]
        exact clearIfParentDeleted_id ids n₀
      rw [← hid]
      exact (mlookup_renumMapping _ hnd_sorted 0 i hi).symm
    · rintro ⟨d, hd, hdm⟩
      have hcleared : (clearIfParentDeleted ids n₀).data.parentId = none := by
        unfold clearIfParentDeleted
        rw [hd]
        show (if d ≠ "" ∧ ids.contains d
            then { n₀ with data := { n₀.data with parentId := none } }
            else n₀).data.parentId = none
        rw [if_pos ⟨fun he => hne (he ▸ hdm), List.elem_iff.mpr hdm⟩]
      rw [assignIds_getElem _ 0 _ i hi hlen]
      show rewriteParent _ (sortNodes (deleteNodesRaw ids st).nodes)[i].data.parentId = none
      rw [hgi, hcleared]
      rfl
  · show (assignIds _ 0 _).length = _
    rw [assignIds_length, sortNodes_length]
    have := congrArg List.length hraw_ids
    simpa using this

/-- Witness for C3: delete the sole parent `node-1` of child `node-2` in
`hierState`; the child survives (renumbered) with `parentId` cleared and no
surviving edge touches the deleted node. -/
theorem deleteNodes_cascade_witness :
    ∃ n ∈ (deleteNodes ["node-1"] hierState).nodes,
      n.id = mlookup (renumMapping 0 (sortNodes (deleteNodesRaw ["node-1"] hierState).nodes))
        "node-2" ∧
      ((∃ d, ({ sampleData with parentId := some "node-1" } : NodeData).parentId = some d ∧
          d ∈ ["node-1"]) → n.data.parentId = none) :=
  (deleteNodes_cascade hierState ["node-1"] (by decide) (by decide)).2.1
    { id := "node-2", x := 0, y := 100, data := { sampleData with parentId := some "node-1" } }
    (by decide) (by decide)

/- ### C1: codec round trip -/

/-- One node attribute tuple of the claimed equivalence: label, onomastic
fields, style, size, and (integer) position — everything except the id and
the parent link. -/
structure AttrTuple where
  label : String
  deathDate : String
  kunya : String
  nasab : String
  nisba : String
  shuhra : String
  biography : String
  nodeShape : String
  nodeFillColor : String
  borderStyle : String
  borderWidth : Int
  borderColor : String
  width : Option Int
  height : Option Int
  x : Int
  y : Int
deriving Repr, DecidableEq

def attrTuple (n : FlowNode) : AttrTuple :=
  { label := n.data.label, deathDate := n.data.deathDate, kunya := n.data.kunya
    nasab := n.data.nasab, nisba := n.data.nisba, shuhra := n.data.shuhra
    biography := n.data.biography, nodeShape := n.data.nodeShape
    nodeFillColor := n.data.nodeFillColor, borderStyle := n.data.borderStyle
    borderWidth := n.data.borderWidth, borderColor := n.data.borderColor
    width := n.data.width, height := n.data.height, x := n.x, y := n.y }

def nodeAttrs (g : FlowGraph) : Multiset AttrTuple := (g.nodes.map attrTuple : List AttrTuple)

/-- The parent topology: the multiset of (parent, child) id pairs. -/
def parentPairs (g : FlowGraph) : Multiset (String × String) :=
  (g.nodes.filterMap (fun n => n.data.parentId.map (fun p => (p, n.id))) : List _)

/-- The connection topology: the multiset of directed (source, target)
pairs. -/
def connPairs (g : FlowGraph) : Multiset (String × String) :=
  (g.edges.map (fun e => (e.source, e.target)) : List _)

/-- Structural equivalence of the claim: same multiset of node attribute
tuples, same parent topology, same connection topology. -/
def structEquiv (g h : FlowGraph) : Prop :=
  nodeAttrs g = nodeAttrs h ∧ parentPairs g = parentPairs h ∧ connPairs g = connPairs h

instance (g h : FlowGraph) : Decidable (structEquiv g h) := by
  unfold structEquiv; exact inferInstance

/-- Parent `node-1`, child `node-2` whose hierarchical edge is stored
child→parent (`top`→`bottom`, as `onConnect`'s first branch creates it),
plus an unrelated connection from `node-3`. -/
def cexGraph : FlowGraph :=
  { nodes := [{ id := "node-1", x := 0, y := 0, data := sampleData },
              { id := "node-2", x := 0, y := 100
                data := { sampleData with parentId := some "node-1" } },
              { id := "node-3", x := 100, y := 0, data := sampleData }]
    edges := [{ id := "e1", source := "node-2", target := "node-1"
                sourceHandle := some "top", targetHandle := some "bottom"
                data := defaultEdge.data },
              { id := "e2", source := "node-3", target := "node-1"
                sourceHandle := some "left", targetHandle := some "right"
                data := defaultEdge.data }] }

/-- C1 counterexample: the encoder omits the child→parent hierarchical edge
from every packed field (it is "the edge to the parent") while the presence
of the other packed connection suppresses `ParentID` reconstruction, so
`decode(encode(g))` loses the edge entirely: the connection topology of the
round trip differs from `g` under any id relabeling (2 edges become 1, and
no surviving edge touches the child at all). -/
theorem roundTrip_drops_child_to_parent_edge :
    ¬ structEquiv cexGraph (roundTrip L999 cexGraph) ∧
    cexGraph.edges.length = 2 ∧
    (roundTrip L999 cexGraph).edges.length = 1 ∧
    (∀ e ∈ (roundTrip L999 cexGraph).edges,
      e.source ≠ "node-2" ∧ e.target ≠ "node-2") := by
  refine ⟨by decide, by decide, by decide, by decide⟩

@[simp] theorem encodeRow_ID (es : List FlowEdge) (n : FlowNode) :
    (encodeRow es n).ID = n.id := rfl

@[simp] theorem encodeRow_X (es : List FlowEdge) (n : FlowNode) :
    (encodeRow es n).X = some n.x := rfl

@[simp] theorem encodeRow_Y (es : List FlowEdge) (n : FlowNode) :
    (encodeRow es n).Y = some n.y := rfl

@[simp] theorem encodeRow_ParentID (es : List FlowEdge) (n : FlowNode) :
    (encodeRow es n).ParentID = n.data.parentId.getD "" := rfl

@[simp] theorem encodeRow_ConnectionData (es : List FlowEdge) (n : FlowNode) :
    (encodeRow es n).ConnectionData =
      String.mk (joinChar ';' ((additionalEdges es n).map tupleChars)) := rfl

/-- Decoding one encoded row reproduces the node, provided the id is
nonempty, the defaulted style strings are nonempty, and the parent link is
not the empty string. -/
theorem decodeNode_encodeRow (es : List FlowEdge) (k : Nat) (n : FlowNode)
    (hid : n.id ≠ "")
    (hshape : n.data.nodeShape ≠ "") (hfill : n.data.nodeFillColor ≠ "")
    (hborder : n.data.borderStyle ≠ "") (hbcolor : n.data.borderColor ≠ "")
    (hparent : n.data.parentId ≠ some "") :
    decodeNode k (encodeRow es n) = n := by
  obtain ⟨nid, nx, ny, nd⟩ := n
  obtain ⟨l1, l2, l3, l4, l5, l6, l7, s1, s2, s3, w1, s4, o1, o2, op⟩ := nd
  simp only [decodeNode, encodeRow, orS] at *
  cases op with
  | none =>
    simp [hid, hshape, hfill, hborder, hbcolor]
  | some p =>
    have hp : p ≠ "" := fun he => hparent (by rw [he])
    simp [hid, hshape, hfill, hborder, hbcolor, hp]

theorem decodeNodes_encode (es : List FlowEdge) :
    ∀ (l : List FlowNode) (k : Nat),
    (∀ n ∈ l, n.id ≠ "" ∧ n.data.nodeShape ≠ "" ∧ n.data.nodeFillColor ≠ "" ∧
      n.data.borderStyle ≠ "" ∧ n.data.borderColor ≠ "" ∧ n.data.parentId ≠ some "") →
    decodeNodes k (l.map (encodeRow es)) = l := by
  intro l
  induction l with
  | nil => intro k _; rfl
  | cons n ns ih =>
    intro k h
    obtain ⟨h1, h2, h3, h4, h5, h6⟩ := h n (List.mem_cons_self n ns)
    show decodeNode k (encodeRow es n) :: decodeNodes (k + 1) (ns.map (encodeRow es)) = n :: ns
    rw [decodeNode_encodeRow es k n h1 h2 h3 h4 h5 h6,
      ih (k + 1) (fun x hx => h x (List.mem_cons_of_mem n hx))]

theorem needsAutoLayout_generateCSV (g : FlowGraph) :
    needsAutoLayout (generateCSV g) = false := by
  unfold needsAutoLayout generateCSV
  rw [List.any_eq_false]
  intro r hr
  obtain ⟨n, _, rfl⟩ := List.mem_map.mp hr
  simp

theorem tupleComponents_length (e : FlowEdge) : 8 ≤ (tupleComponents e).length := by
  unfold tupleComponents
  by_cases h : e.data.curveStyle = "bezier" <;> simp [h]

theorem mem_joinChar {sep : Char} {c : Char} : ∀ {ls : List (List Char)},
    c ∈ joinChar sep ls → c = sep ∨ ∃ l ∈ ls, c ∈ l := by
  intro ls
  induction ls with
  | nil => intro h; simp [joinChar] at h
  | cons l ls ih =>
    intro h
    cases ls with
    | nil => exact Or.inr ⟨l, by simp, by simpa [joinChar] using h⟩
    | cons l2 ls2 =>
      have h' : c ∈ l ∨ c = sep ∨ c ∈ joinChar sep (l2 :: ls2) := by
        simpa [joinChar] using h
      rcases h' with h' | h' | h'
      · exact Or.inr ⟨l, by simp, h'⟩
      · exact Or.inl h'
      · rcases ih h' with h3 | ⟨x, hx, hcx⟩
        · exact Or.inl h3
        · exact Or.inr ⟨x, List.mem_cons_of_mem l hx, hcx⟩

theorem mem_joinChar_of_mem {sep : Char} {c : Char} : ∀ {ls : List (List Char)}
    {l : List Char}, l ∈ ls → c ∈ l → c ∈ joinChar sep ls := by
  intro ls
  induction ls with
  | nil => intro l h; simp at h
  | cons x xs ih =>
    intro l hl hc
    cases xs with
    | nil =>
      rcases List.mem_cons.mp hl with rfl | h
      · simpa [joinChar] using hc
      · simp at h
    | cons x2 xs2 =>
      show c ∈ x ++ sep :: joinChar sep (x2 :: xs2)
      rcases List.mem_cons.mp hl with rfl | h
      · exact List.mem_append.mpr (Or.inl hc)
      · exact List.mem_append.mpr (Or.inr (List.mem_cons_of_mem sep (ih h hc)))

theorem sep_mem_joinChar (sep : Char) {ls : List (List Char)} (h : 2 ≤ ls.length) :
    sep ∈ joinChar sep ls := by
  match ls, h with
  | l :: l2 :: rest, _ =>
    show sep ∈ l ++ sep :: joinChar sep (l2 :: rest)
    exact List.mem_append.mpr (Or.inr (List.mem_cons_self _ _))

theorem count_joinChar_ge (sep : Char) : ∀ (ls : List (List Char)),
    ls.length - 1 ≤ (joinChar sep ls).count sep := by
  intro ls
  induction ls with
  | nil => simp
  | cons l ls ih =>
    cases ls with
    | nil => simp
    | cons l2 ls2 =>
      show (l2 :: ls2).length + 1 - 1 ≤ (l ++ sep :: joinChar sep (l2 :: ls2)).count sep
      rw [List.count_append, List.count_cons]
      simp only [List.length_cons] at ih ⊢
      have := ih
      simp only [beq_self_eq_true, if_pos] at *
      omega

theorem comma_mem_tupleChars (e : FlowEdge) : ',' ∈ tupleChars e := by
  unfold tupleChars
  apply sep_mem_joinChar
  rw [List.length_map]
  have := tupleComponents_length e
  omega

theorem semicolon_not_mem_tupleChars (e : FlowEdge)
    (h : ∀ c ∈ tupleComponents e, (';' : Char) ∉ c.data) :
    (';' : Char) ∉ tupleChars e := by
  intro hm
  rcases mem_joinChar hm with h' | ⟨l, hl, hcl⟩
  · exact absurd h' (by decide)
  · obtain ⟨c, hc, rfl⟩ := List.mem_map.mp hl
    exact h c hc hcl

/-- Splitting an encoded tuple at commas recovers the target id as the first
part and at least 7 further parts. -/
theorem splitChar_tupleChars (e : FlowEdge) (htarget : (',' : Char) ∉ e.target.data) :
    splitChar ',' (tupleChars e) =
      e.target.data :: splitChar ',' (joinChar ',' (((tupleComponents e).tail).map String.data)) ∧
    8 ≤ (splitChar ',' (tupleChars e)).length := by
  have hdecomp : tupleComponents e = e.target :: (tupleComponents e).tail := by
    unfold tupleComponents
    rfl
  have htail_len : 7 ≤ (tupleComponents e).tail.length := by
    have := tupleComponents_length e
    rw [hdecomp] at this
    simpa using this
  have hjoin : tupleChars e =
      e.target.data ++ ',' :: joinChar ',' (((tupleComponents e).tail).map String.data) := by
    unfold tupleChars
    rw [hdecomp]
    cases ht : (tupleComponents e).tail with
    | nil => rw [ht] at htail_len; simp at htail_len
    | cons a as => simp [joinChar]
  have hsplit : splitChar ',' (tupleChars e) =
      e.target.data :: splitChar ',' (joinChar ',' (((tupleComponents e).tail).map String.data)) := by
    rw [hjoin]
    exact splitChar_append_sep ',' _ _ htarget
  refine ⟨hsplit, ?_⟩
  rw [hsplit]
  have hc := count_joinChar_ge ',' (((tupleComponents e).tail).map String.data)
  rw [List.length_map] at hc
  have hl := length_splitChar ',' (joinChar ',' (((tupleComponents e).tail).map String.data))
  simp only [List.length_cons]
  omega

/-- Parsing an encoded tuple succeeds and recovers the endpoints. -/
theorem parseEntry_tupleChars (rid : String) (i : Nat) (e : FlowEdge)
    (htarget : (',' : Char) ∉ e.target.data) :
    ∃ ed, parseEntry rid i (tupleChars e) = some ed ∧
      ed.source = rid ∧ ed.target = e.target := by
  obtain ⟨hsplit, hlen⟩ := splitChar_tupleChars e htarget
  unfold parseEntry
  rw [if_neg (by rw [List.length_map]; omega)]
  refine ⟨_, rfl, rfl, ?_⟩
  show ((splitChar ',' (tupleChars e)).map String.mk).getD 0 "" = e.target
  rw [hsplit]
  rfl

/-- The indexed entry loop over a list of encoded tuples recovers exactly
the (row id, target) pairs. -/
theorem parseEntries_tupleChars (rid : String) : ∀ (es : List FlowEdge) (i : Nat),
    (∀ e ∈ es, (',' : Char) ∉ e.target.data) →
    (parseEntries rid i (es.map tupleChars)).map (fun ed => (ed.source, ed.target)) =
      es.map (fun e => (rid, e.target)) := by
  intro es
  induction es with
  | nil => intro i _; rfl
  | cons e es ih =>
    intro i h
    obtain ⟨ed, hed, hs, ht⟩ :=
      parseEntry_tupleChars rid i e (h e (List.mem_cons_self e es))
    show (parseEntries rid i (tupleChars e :: es.map tupleChars)).map _ = _
    unfold parseEntries
    rw [hed]
    simp only [List.map_cons, hs, ht]
    rw [ih (i + 1) (fun x hx => h x (List.mem_cons_of_mem e hx))]

/-- `parsePacked` of an encoded packed field recovers the (source, target)
pairs of the serialized edges. -/
theorem parsePacked_connStr (rid : String) (es : List FlowEdge) (hne : es ≠ [])
    (hsemi : ∀ e ∈ es, ∀ c ∈ tupleComponents e, (';' : Char) ∉ c.data)
    (hcomma : ∀ e ∈ es, (',' : Char) ∉ e.target.data) :
    (parsePacked rid (String.mk (joinChar ';' (es.map tupleChars)))).map
        (fun ed => (ed.source, ed.target)) =
      es.map (fun e => (rid, e.target)) := by
  unfold parsePacked
  have hdata : (String.mk (joinChar ';' (es.map tupleChars))).data =
      joinChar ';' (es.map tupleChars) := rfl
  rw [hdata]
  rw [splitChar_joinChar ';' (es.map tupleChars)
    (by simpa using hne)
    (by
      intro l hl
      obtain ⟨e, he, rfl⟩ := List.mem_map.mp hl
      exact semicolon_not_mem_tupleChars e (hsemi e he))]
  have hfil : (es.map tupleChars).filter (fun c => jsTrim (String.mk c) ≠ "") =
      es.map tupleChars := by
    rw [List.filter_eq_self]
    intro l hl
    obtain ⟨e, he, rfl⟩ := List.mem_map.mp hl
    have : jsTrim (String.mk (tupleChars e)) ≠ "" :=
      jsTrim_ne_empty_of_mem (comma_mem_tupleChars e) (by decide)
    simpa using this
  rw [hfil]
  exact parseEntries_tupleChars rid es 0 hcomma

/-- When no edge runs from a node to its own parent, the packed field of a
row serializes exactly the edges leaving that node. -/
theorem additionalEdges_eq_filter (es : List FlowEdge) (n : FlowNode)
    (hpar : ∀ e ∈ es, e.source = n.id → n.data.parentId ≠ some e.target) :
    additionalEdges es n = es.filter (fun e => e.source = n.id) := by
  unfold additionalEdges
  apply List.filter_congr
  intro e he
  by_cases hs : e.source = n.id
  · have hnot : ¬ (n.data.parentId.getD "" ≠ "" ∧ e.target = n.data.parentId.getD "") := by
      rintro ⟨hp1, hp2⟩
      have hsome : n.data.parentId = some e.target := by
        cases hp : n.data.parentId with
        | none => rw [hp] at hp1; simp at hp1
        | some q =>
          rw [hp] at hp2
          simp only [Option.getD_some] at hp2
          rw [hp2]
      exact hpar e he hs hsome
    simp [hs, hnot]
  · simp [hs]

/-- The spec's "edges grouped by their source row", at the pair level. -/
def groupPairs (E : List FlowEdge) : List FlowNode → List (String × String)
  | [] => []
  | n :: ns =>
    (E.filter (fun e => e.source = n.id)).map (fun e => (e.source, e.target)) ++
      groupPairs E ns

theorem groupPairs_filter_out (n : FlowNode) : ∀ (ns : List FlowNode)
    (E : List FlowEdge), n.id ∉ ns.map (fun x => x.id) →
    groupPairs E ns = groupPairs (E.filter (fun e => !(e.source = n.id))) ns := by
  intro ns
  induction ns with
  | nil => intro E _; rfl
  | cons m ms ih =>
    intro E hm
    have hne : m.id ≠ n.id := by
      intro he
      exact hm (he ▸ List.mem_map_of_mem _ (List.mem_cons_self m ms))
    show _ ++ groupPairs E ms = _ ++ groupPairs _ ms
    have h1 : (E.filter (fun e => !(e.source = n.id))).filter (fun e => e.source = m.id) =
        E.filter (fun e => e.source = m.id) := by
      rw [List.filter_filter]
      apply List.filter_congr
      intro e _
      by_cases hs : e.source = m.id
      · have hx : e.source ≠ n.id := fun hx => hne (by rw [← hs, hx])
        simp [hs, hx, hne]
      · simp [hs]
    have hm' : n.id ∉ ms.map (fun x => x.id) := by
      intro hx
      apply hm
      obtain ⟨x, hx1, hx2⟩ := List.mem_map.mp hx
      exact hx2 ▸ List.mem_map_of_mem _ (List.mem_cons_of_mem m hx1)
    rw [h1, ih E hm']

theorem groupPairs_perm : ∀ (nodes : List FlowNode) (E : List FlowEdge),
    ((nodes.map (fun n => n.id)).Nodup) →
    (∀ e ∈ E, ∃ n ∈ nodes, n.id = e.source) →
    List.Perm (groupPairs E nodes) (E.map (fun e => (e.source, e.target))) := by
  intro nodes
  induction nodes with
  | nil =>
    intro E _ hsrc
    cases E with
    | nil => exact List.Perm.refl _
    | cons e es =>
      obtain ⟨n, hn, _⟩ := hsrc e (List.mem_cons_self e es)
      simp at hn
  | cons n ns ih =>
    intro E hnd hsrc
    simp only [List.map_cons, List.nodup_cons] at hnd
    obtain ⟨hm, hms⟩ := hnd
    show List.Perm ((E.filter (fun e => e.source = n.id)).map (fun e => (e.source, e.target))
      ++ groupPairs E ns) _
    rw [groupPairs_filter_out n ns E hm]
    have hih := ih (E.filter (fun e => !(e.source = n.id))) hms (by
      intro e he
      obtain ⟨hmem, hpred⟩ := List.mem_filter.mp he
      obtain ⟨x, hx, hxe⟩ := hsrc e hmem
      rcases List.mem_cons.mp hx with rfl | hx'
      · exfalso
        simp only [Bool.not_eq_true', decide_eq_false_iff_not] at hpred
        exact hpred hxe.symm
      · exact ⟨x, hx', hxe⟩)
    refine ((hih.append_left _).trans ?_)
    have hsplit := List.filter_append_perm (fun e => decide (e.source = n.id)) E
    rw [← List.map_append]
    exact hsplit.map _

theorem packedOnly_pairs (E : List FlowEdge) : ∀ (l : List FlowNode),
    (∀ n ∈ l, ∀ e ∈ E, e.source = n.id → n.data.parentId ≠ some e.target) →
    (∀ e ∈ E, (∀ c ∈ tupleComponents e, (';' : Char) ∉ c.data) ∧
      (',' : Char) ∉ e.target.data) →
    (packedOnlyEdges (l.map (encodeRow E))).map (fun ed => (ed.source, ed.target)) =
      groupPairs E l := by
  intro l
  induction l with
  | nil => intro _ _; rfl
  | cons n ns ih =>
    intro hpar hdelim
    have hAE : additionalEdges E n = E.filter (fun e => e.source = n.id) :=
      additionalEdges_eq_filter E n (hpar n (List.mem_cons_self n ns))
    show ((if (encodeRow E n).ConnectionData ≠ "" then
        parsePacked (encodeRow E n).ID (encodeRow E n).ConnectionData else []) ++
        packedOnlyEdges (ns.map (encodeRow E))).map _ = _
    rw [List.map_append, ih (fun x hx => hpar x (List.mem_cons_of_mem n hx)) hdelim]
    show _ = (E.filter (fun e => e.source = n.id)).map (fun e => (e.source, e.target))
      ++ groupPairs E ns
    congr 1
    cases hfe : E.filter (fun e => e.source = n.id) with
    | nil =>
      have hconn : (encodeRow E n).ConnectionData = "" := by
        rw [encodeRow_ConnectionData, hAE, hfe]
        rfl
      rw [hconn]
      simp
    | cons e1 es1 =>
      have hsubE : ∀ x ∈ E.filter (fun e => e.source = n.id), x ∈ E := by
        intro x hx
        exact (List.mem_filter.mp hx).1
      have hconn : (encodeRow E n).ConnectionData =
          String.mk (joinChar ';' ((E.filter (fun e => e.source = n.id)).map tupleChars)) := by
        rw [encodeRow_ConnectionData, hAE]
      have hne : (encodeRow E n).ConnectionData ≠ "" := by
        rw [hconn]
        intro hx
        have hmem : (',' : Char) ∈
            joinChar ';' ((E.filter (fun e => e.source = n.id)).map tupleChars) :=
          mem_joinChar_of_mem
            (List.mem_map_of_mem tupleChars (hfe ▸ List.mem_cons_self e1 es1))
            (comma_mem_tupleChars e1)
        rw [show joinChar ';' ((E.filter (fun e => e.source = n.id)).map tupleChars) =
            (String.mk (joinChar ';' ((E.filter (fun e => e.source = n.id)).map tupleChars))).data
          from rfl, hx] at hmem
        simp at hmem
      rw [if_pos hne, hconn]
      have hid : (encodeRow E n).ID = n.id := rfl
      rw [hid]
      rw [parsePacked_connStr n.id (E.filter (fun e => e.source = n.id))
        (by rw [hfe]; simp)
        (fun x hx => (hdelim x (hsubE x hx)).1)
        (fun x hx => (hdelim x (hsubE x hx)).2)]
      rw [← hfe]
      apply List.map_congr_left
      intro x hx
      have hs := (List.mem_filter.mp hx).2
      simp only [decide_eq_true_eq] at hs
      rw [hs]

theorem parentOnlyEdges_nil : ∀ (rows : List CSVRow),
    (∀ r ∈ rows, r.ParentID = "") → parentOnlyEdges rows = [] := by
  intro rows
  induction rows with
  | nil => intro _; rfl
  | cons r rs ih =>
    intro h
    show (if r.ParentID ≠ "" then [parentEdgeOf r] else []) ++ parentOnlyEdges rs = []
    rw [if_neg (by simp [h r (List.mem_cons_self r rs)]),
      ih (fun x hx => h x (List.mem_cons_of_mem r hx))]
    rfl

theorem hasAny_generateCSV_of_edge (g : FlowGraph) (e : FlowEdge) (he : e ∈ g.edges)
    (hsrc : ∃ n ∈ g.nodes, n.id = e.source)
    (hpar : ∀ e' ∈ g.edges, ∀ n ∈ g.nodes, n.id = e'.source →
      n.data.parentId ≠ some e'.target) :
    hasAnyConnectionData (generateCSV g) = true := by
  obtain ⟨n, hn, hne⟩ := hsrc
  unfold hasAnyConnectionData generateCSV
  rw [List.any_eq_true]
  refine ⟨encodeRow g.edges n, List.mem_map_of_mem _ hn, ?_⟩
  have hAE : additionalEdges g.edges n = g.edges.filter (fun x => x.source = n.id) :=
    additionalEdges_eq_filter g.edges n (fun x hx hs => hpar x hx n hn hs.symm)
  have hmemf : e ∈ g.edges.filter (fun x => x.source = n.id) :=
    List.mem_filter.mpr ⟨he, by simp [hne]⟩
  have hcomma : (',' : Char) ∈ (encodeRow g.edges n).ConnectionData.data := by
    rw [encodeRow_ConnectionData, hAE]
    exact mem_joinChar_of_mem (List.mem_map_of_mem tupleChars hmemf)
      (comma_mem_tupleChars e)
  have hne' : jsTrim (encodeRow g.edges n).ConnectionData ≠ "" :=
    jsTrim_ne_empty_of_mem hcomma (by decide)
  rw [encodeRow_ConnectionData] at hne'
  simp [hne']

/-- Well-formed store graphs for the amended round trip: distinct nonempty
node ids; the defaulted style strings nonempty; the parent link never the
empty string; every edge's source a live node; the serialized tuple
components free of the `;` delimiter and the target id free of `,`; no edge
from a node to its own parent (hierarchical edges stored parent→child); and
no parent link without any edge in the graph. -/
def wfGraph (g : FlowGraph) : Prop :=
  (g.nodes.map (fun n => n.id)).Nodup ∧
  (∀ n ∈ g.nodes, n.id ≠ "" ∧ n.data.nodeShape ≠ "" ∧ n.data.nodeFillColor ≠ "" ∧
    n.data.borderStyle ≠ "" ∧ n.data.borderColor ≠ "" ∧ n.data.parentId ≠ some "") ∧
  (∀ e ∈ g.edges, ∃ n ∈ g.nodes, n.id = e.source) ∧
  (∀ e ∈ g.edges, (∀ c ∈ tupleComponents e, (';' : Char) ∉ c.data) ∧
    (',' : Char) ∉ e.target.data) ∧
  (∀ e ∈ g.edges, ∀ n ∈ g.nodes, n.id = e.source → n.data.parentId ≠ some e.target) ∧
  (g.edges = [] → ∀ n ∈ g.nodes, n.data.parentId = none)

instance (g : FlowGraph) : Decidable (wfGraph g) := by
  unfold wfGraph; exact inferInstance

/-- C1 (amended): for every well-formed graph (see `wfGraph`; in particular
no edge runs from a child to its own parent and no parent link exists
without edges), `decode(encode(g))` is structurally equivalent to `g`: the
same multiset of node attribute tuples (positions included — integer
coordinates round-trip exactly), the same parent topology, and the same
multiset of directed connections.  Without the child→parent-edge
restriction the round trip fails (see the counterexample). -/
theorem roundTrip_structural_equivalence (L : LayoutFn) (g : FlowGraph)
    (hwf : wfGraph g) : structEquiv g (roundTrip L g) := by
  obtain ⟨hnd, hnode, hsrc, hdelim, hpar, hempty⟩ := hwf
  have hshape : roundTrip L g =
      { nodes := decodeNodes 0 (generateCSV g)
        edges := decodeEdges (hasAnyConnectionData (generateCSV g)) (generateCSV g) } :=
    (parseRows_layout_condition L (generateCSV g)).2.2 (needsAutoLayout_generateCSV g)
  have hre : (roundTrip L g).edges =
      decodeEdges (hasAnyConnectionData (generateCSV g)) (generateCSV g) := by
    rw [hshape]
  have hrn : (roundTrip L g).nodes = g.nodes := by
    rw [hshape]
    exact decodeNodes_encode g.edges g.nodes 0 hnode
  have hedges : ((roundTrip L g).edges.map (fun e => (e.source, e.target)) :
      Multiset (String × String)) =
      (g.edges.map (fun e => (e.source, e.target)) : Multiset (String × String)) := by
    cases hE : g.edges with
    | nil =>
      have hconnNil : ∀ n ∈ g.nodes, (encodeRow g.edges n).ConnectionData = "" := by
        intro n _
        rw [encodeRow_ConnectionData,
          show additionalEdges g.edges n = [] from by
            unfold additionalEdges
            rw [hE]
            rfl]
        rfl
      have hhas : hasAnyConnectionData (generateCSV g) = false := by
        unfold hasAnyConnectionData generateCSV
        rw [List.any_eq_false]
        intro r hr
        obtain ⟨n, hn, rfl⟩ := List.mem_map.mp hr
        rw [hconnNil n hn]
        simp [jsTrim, jsTrimL]
      have hdec : decodeEdges false (generateCSV g) = parentOnlyEdges (generateCSV g) := by
        apply decodeEdges_false
        intro r hr
        obtain ⟨n, hn, rfl⟩ := List.mem_map.mp hr
        rw [hconnNil n hn]
        rfl
      have hpo : parentOnlyEdges (generateCSV g) = [] := by
        apply parentOnlyEdges_nil
        intro r hr
        obtain ⟨n, hn, rfl⟩ := List.mem_map.mp hr
        rw [encodeRow_ParentID, hempty hE n hn]
        rfl
      rw [hre, hhas, hdec, hpo]
    | cons e0 rest =>
      have he0 : e0 ∈ g.edges := hE ▸ List.mem_cons_self e0 rest
      have hhas : hasAnyConnectionData (generateCSV g) = true :=
        hasAny_generateCSV_of_edge g e0 he0 (hsrc e0 he0) hpar
      have hpairs : (packedOnlyEdges (generateCSV g)).map (fun ed => (ed.source, ed.target)) =
          groupPairs g.edges g.nodes := by
        unfold generateCSV
        exact packedOnly_pairs g.edges g.nodes
          (fun n hn e he hs => hpar e he n hn hs.symm) hdelim
      rw [hre, hhas, decodeEdges_true, hpairs, ← hE]
      exact Multiset.coe_eq_coe.mpr (groupPairs_perm g.nodes g.edges hnd hsrc)
  refine ⟨?_, ?_, ?_⟩
  · unfold nodeAttrs
    rw [hrn]
  · unfold parentPairs
    rw [hrn]
  · unfold connPairs
    exact hedges.symm

/-- A concrete well-formed parent/child graph whose hierarchical edge is
stored parent→child (bottom→top). -/
def wfSample : FlowGraph :=
  { nodes := [{ id := "node-1", x := 0, y := 0, data := sampleData },
              { id := "node-2", x := 0, y := 100
                data := { sampleData with parentId := some "node-1" } }]
    edges := [{ id := "hier-1", source := "node-1", target := "node-2"
                sourceHandle := some "bottom", targetHandle := some "top"
                data := defaultEdge.data }] }

/-- Witness for C1's amended theorem at a concrete well-formed graph. -/
theorem roundTrip_structural_equivalence_witness :
    structEquiv wfSample (roundTrip L999 wfSample) :=
  roundTrip_structural_equivalence L999 wfSample (by decide)
